import Mathlib

/-! Verification development for a single-file BitTorrent client
    (src/main.cpp): a shallow embedding of its piece work queue, peer wire
    framing, handshake validation, block download loop, download scheduler
    glue and bencode codec, together with theorems settling the spec's
    claims about them. -/

namespace BT

/-! ## Piece work queue

The C++ work queue (struct PieceWorkQueue) holds a vector of byte-sized
cells, 0 = pending, 1 = in-progress, 2 = done, plus an int64 remaining
counter; all operations run under one mutex, so the concurrent history is a
sequence of atomic operations on this state. -/

structure QueueState where
  state : List Nat
  remaining : Int
deriving DecidableEq

/-- Embeds bitfield_has_piece: the bit for piece i lives in byte i / 8, at
position 7 - i % 8 counted from the least significant bit; an index beyond
the bitfield (or, in the C++, a negative one) reads as false. -/
def bitfield_has_piece (bitfield : List Nat) (pieceIndex : Nat) : Bool :=
  match bitfield[pieceIndex / 8]? with
  | none => false
  | some b => ((b >>> (7 - pieceIndex % 8)) &&& 1) != 0

/-- Embeds the scan loop of acquire_next_piece: walk the cells from index i
with count cells still to inspect (the C++ for-loop over
i < num_pieces, here structural over the state suffix).  A cell is taken
when it is pending and the bitfield is empty or has its bit set.  The
empty-state case guards the out-of-range indexing that the C++ never
exercises because callers pass num_pieces = state.size(). -/
def acquireLoop (bitfield : List Nat) : List Nat → Nat → Nat → Option Nat
  | _, _, 0 => none
  | [], _, _ + 1 => none
  | st :: rest, i, count + 1 =>
    if st ≠ 0 then acquireLoop bitfield rest (i + 1) count
    else if !bitfield.isEmpty && !bitfield_has_piece bitfield i then
      acquireLoop bitfield rest (i + 1) count
    else some i

/-- Embeds acquire_next_piece: under the mutex, return -1 (here none) when
remaining is not positive, otherwise scan for the lowest eligible pending
piece and mark it in-progress. -/
def acquire_next_piece (q : QueueState) (bitfield : List Nat) (numPieces : Nat) :
    Option Nat × QueueState :=
  if q.remaining ≤ 0 then (none, q)
  else
    match acquireLoop bitfield q.state 0 numPieces with
    | some i => (some i, { q with state := q.state.set i 1 })
    | none => (none, q)

/-- Embeds mark_piece_done: only an in-progress cell moves to done, and only
then is remaining decremented; out-of-range indices are ignored. -/
def mark_piece_done (q : QueueState) (idx : Nat) : QueueState :=
  match q.state[idx]? with
  | some 1 => { state := q.state.set idx 2, remaining := q.remaining - 1 }
  | _ => q

/-- Embeds mark_piece_retry: only an in-progress cell moves back to pending;
remaining is unchanged; out-of-range indices are ignored. -/
def mark_piece_retry (q : QueueState) (idx : Nat) : QueueState :=
  match q.state[idx]? with
  | some 1 => { state := q.state.set idx 0, remaining := q.remaining }
  | _ => q

/-- The queue constructor: num_pieces pending cells, remaining = num_pieces. -/
def initQueue (numPieces : Nat) : QueueState :=
  ⟨List.replicate numPieces 0, numPieces⟩

/-- Number of cells not in state done (state 2). -/
def countNonDone (l : List Nat) : Nat :=
  l.countP (fun c => c != 2)

/-- One mutex-protected operation on the queue. -/
inductive QueueOp where
  | acq (bitfield : List Nat) (numPieces : Nat)
  | done (idx : Nat)
  | retry (idx : Nat)

/-- State reached after applying one operation. -/
def applyOp (q : QueueState) : QueueOp → QueueState
  | .acq bf np => (acquire_next_piece q bf np).2
  | .done i => mark_piece_done q i
  | .retry i => mark_piece_retry q i

/-- Queue states reachable from the initial all-pending state by the three
operations. -/
inductive Reachable (n : Nat) : QueueState → Prop where
  | init : Reachable n (initQueue n)
  | step {q : QueueState} (op : QueueOp) : Reachable n q → Reachable n (applyOp q op)

/-- The per-cell transitions the queue operations may perform: unchanged,
pending to in-progress, in-progress to done, or in-progress to pending. -/
def transPair (x y : Option Nat) : Prop :=
  y = x ∨ (x = some 0 ∧ y = some 1) ∨ (x = some 1 ∧ y = some 2) ∨
    (x = some 1 ∧ y = some 0)

/-! Helper lemmas about the queue. -/

theorem countP_set_add (p : Nat → Bool) :
    ∀ (l : List Nat) (i a b : Nat), l[i]? = some a →
      (l.set i b).countP p + (if p a then 1 else 0) =
        l.countP p + (if p b then 1 else 0) := by
  intro l
  induction l with
  | nil => intro i a b h; simp at h
  | cons x xs ih =>
    intro i a b h
    cases i with
    | zero =>
      simp only [List.getElem?_cons_zero] at h
      injection h with h
      subst h
      simp only [List.set, List.countP_cons]
      by_cases hb : p b <;> by_cases hx : p x <;> simp [hb, hx] <;> omega
    | succ j =>
      simp only [List.getElem?_cons_succ] at h
      simp only [List.set, List.countP_cons]
      have := ih j a b h
      by_cases hx : p x <;> simp [hx] <;> omega

theorem countNonDone_replicate (n : Nat) : countNonDone (List.replicate n 0) = n := by
  induction n with
  | zero => rfl
  | succ m ih => simp [countNonDone, List.replicate_succ, List.countP_cons] at ih ⊢; omega

theorem countNonDone_pos {l : List Nat} {i : Nat} (h : l[i]? = some 0) :
    0 < countNonDone l := by
  have hmem : (0 : Nat) ∈ l := by
    exact List.getElem?_mem h
  have : l.countP (fun c => c != 2) ≠ 0 := by
    intro hz
    rw [List.countP_eq_zero] at hz
    have := hz 0 hmem
    simp at this
  exact Nat.pos_of_ne_zero this

/-- What a successful scan guarantees: the returned index is in range, its
cell is pending, the bitfield condition holds, and no earlier inspected cell
was eligible. -/
theorem acquireLoop_some (bf : List Nat) :
    ∀ (s : List Nat) (i count j : Nat), acquireLoop bf s i count = some j →
      i ≤ j ∧ j < i + count ∧ s[j - i]? = some 0 ∧
      (bf = [] ∨ bitfield_has_piece bf j = true) ∧
      ∀ k, i ≤ k → k < j →
        ¬(s[k - i]? = some 0 ∧ (bf = [] ∨ bitfield_has_piece bf k = true)) := by
  intro s
  induction s with
  | nil =>
    intro i count j h
    cases count <;> simp [acquireLoop] at h
  | cons st rest ih =>
    intro i count j h
    cases count with
    | zero => simp [acquireLoop] at h
    | succ c =>
      simp only [acquireLoop] at h
      by_cases hst : st ≠ 0
      · simp only [if_pos hst] at h
        obtain ⟨h1, h2, h3, h4, h5⟩ := ih (i + 1) c j h
        refine ⟨by omega, by omega, ?_, h4, ?_⟩
        · have : j - i = (j - (i + 1)) + 1 := by omega
          rw [this]
          simpa using h3
        · intro k hk1 hk2 hcond
          rcases Nat.eq_or_lt_of_le hk1 with rfl | hlt
          · rw [Nat.sub_self] at hcond
            simp only [List.getElem?_cons_zero] at hcond
            exact hst (by injection hcond.1)
          · have hk : k - i = (k - (i + 1)) + 1 := by omega
            rw [hk] at hcond
            exact h5 k (by omega) hk2 (by simpa using hcond)
      · push_neg at hst
        subst hst
        simp only [ne_eq, not_true_eq_false, if_false] at h
        by_cases hbf : !bf.isEmpty && !bitfield_has_piece bf i
        · rw [if_pos hbf] at h
          obtain ⟨h1, h2, h3, h4, h5⟩ := ih (i + 1) c j h
          refine ⟨by omega, by omega, ?_, h4, ?_⟩
          · have : j - i = (j - (i + 1)) + 1 := by omega
            rw [this]
            simpa using h3
          · intro k hk1 hk2 hcond
            rcases Nat.eq_or_lt_of_le hk1 with rfl | hlt
            · simp only [Bool.and_eq_true, Bool.not_eq_true'] at hbf
              rcases hcond.2 with hbfnil | hhas
              · rw [hbfnil] at hbf
                simp at hbf
              · rw [hbf.2] at hhas
                exact Bool.false_ne_true hhas
            · have hk : k - i = (k - (i + 1)) + 1 := by omega
              rw [hk] at hcond
              exact h5 k (by omega) hk2 (by simpa using hcond)
        · rw [if_neg hbf] at h
          injection h with h
          subst h
          refine ⟨Nat.le_refl _, by omega, by simp, ?_, ?_⟩
          · simp only [Bool.and_eq_true, Bool.not_eq_true'] at hbf
            by_cases hnil : bf = []
            · exact Or.inl hnil
            · right
              rcases Bool.eq_false_or_eq_true (bitfield_has_piece bf i) with ht | hf
              · exact ht
              · exfalso
                apply hbf
                constructor
                · simpa [List.isEmpty_iff] using hnil
                · simpa using hf
          · intro k hk1 hk2
            omega

/-- What a failed scan guarantees when the count does not run past the end of
the state: no inspected cell was an eligible pending cell. -/
theorem acquireLoop_none (bf : List Nat) :
    ∀ (s : List Nat) (i count : Nat), acquireLoop bf s i count = none →
      count ≤ s.length →
      ∀ k, i ≤ k → k < i + count →
        ¬(s[k - i]? = some 0 ∧ (bf = [] ∨ bitfield_has_piece bf k = true)) := by
  intro s
  induction s with
  | nil =>
    intro i count h hlen k hk1 hk2
    simp at hlen
    omega
  | cons st rest ih =>
    intro i count h hlen k hk1 hk2
    cases count with
    | zero => omega
    | succ c =>
      simp only [acquireLoop] at h
      simp only [List.length_cons] at hlen
      by_cases hst : st ≠ 0
      · rw [if_pos hst] at h
        intro hcond
        rcases Nat.eq_or_lt_of_le hk1 with rfl | hlt
        · rw [Nat.sub_self] at hcond
          simp only [List.getElem?_cons_zero] at hcond
          exact hst (by injection hcond.1)
        · have hk : k - i = (k - (i + 1)) + 1 := by omega
          rw [hk] at hcond
          exact ih (i + 1) c h (by omega) k (by omega) (by omega) (by simpa using hcond)
      · push_neg at hst
        subst hst
        simp only [ne_eq, not_true_eq_false, if_false] at h
        by_cases hbf : !bf.isEmpty && !bitfield_has_piece bf i
        · rw [if_pos hbf] at h
          intro hcond
          rcases Nat.eq_or_lt_of_le hk1 with rfl | hlt
          · simp only [Bool.and_eq_true, Bool.not_eq_true'] at hbf
            rcases hcond.2 with hbfnil | hhas
            · rw [hbfnil] at hbf
              simp at hbf
            · rw [hbf.2] at hhas
              exact Bool.false_ne_true hhas
          · have hk : k - i = (k - (i + 1)) + 1 := by omega
            rw [hk] at hcond
            exact ih (i + 1) c h (by omega) k (by omega) (by omega) (by simpa using hcond)
        · rw [if_neg hbf] at h
          exact absurd h (by simp)

/-- The two-part queue invariant: every cell holds one of the three states,
and remaining equals the number of cells not done. -/
def QueueInv (q : QueueState) : Prop :=
  (∀ c ∈ q.state, c ≤ 2) ∧ q.remaining = (countNonDone q.state : Int)

theorem queueInv_init (n : Nat) : QueueInv (initQueue n) := by
  constructor
  · intro c hc
    have := List.eq_of_mem_replicate hc
    omega
  · simp [initQueue, countNonDone_replicate]

theorem acquire_next_piece_cases (q : QueueState) (bf : List Nat) (np : Nat) :
    (acquire_next_piece q bf np = (none, q)) ∨
    ∃ i, q.state[i]? = some 0 ∧
      acquire_next_piece q bf np = (some i, { q with state := q.state.set i 1 }) := by
  unfold acquire_next_piece
  by_cases hr : q.remaining ≤ 0
  · left; rw [if_pos hr]
  · rw [if_neg hr]
    cases hloop : acquireLoop bf q.state 0 np with
    | none => left; rfl
    | some i =>
      right
      refine ⟨i, ?_, rfl⟩
      have := (acquireLoop_some bf q.state 0 np i hloop).2.2.1
      simpa using this

theorem mark_piece_done_cases (q : QueueState) (idx : Nat) :
    (mark_piece_done q idx = q) ∨
    (q.state[idx]? = some 1 ∧
      mark_piece_done q idx = ⟨q.state.set idx 2, q.remaining - 1⟩) := by
  unfold mark_piece_done
  cases h : q.state[idx]? with
  | none => left; rfl
  | some st =>
    match st with
    | 0 => left; rfl
    | 1 => right; exact ⟨rfl, rfl⟩
    | n + 2 => left; rfl

theorem mark_piece_retry_cases (q : QueueState) (idx : Nat) :
    (mark_piece_retry q idx = q) ∨
    (q.state[idx]? = some 1 ∧
      mark_piece_retry q idx = ⟨q.state.set idx 0, q.remaining⟩) := by
  unfold mark_piece_retry
  cases h : q.state[idx]? with
  | none => left; rfl
  | some st =>
    match st with
    | 0 => left; rfl
    | 1 => right; exact ⟨rfl, rfl⟩
    | n + 2 => left; rfl

theorem queueInv_set (q : QueueState) (i a b : Nat) (r : Int)
    (hinv : QueueInv q) (hget : q.state[i]? = some a) (hb : b ≤ 2)
    (hr : r + (if (a != 2) = true then 1 else 0) =
      q.remaining + (if (b != 2) = true then 1 else 0)) :
    QueueInv ⟨q.state.set i b, r⟩ := by
  obtain ⟨hcell, hcount⟩ := hinv
  constructor
  · intro c hc
    rcases List.mem_or_eq_of_mem_set hc with hmem | rfl
    · exact hcell c hmem
    · exact hb
  · have hadd := countP_set_add (fun c => c != 2) q.state i a b hget
    beta_reduce at hadd
    show r = (countNonDone (q.state.set i b) : Int)
    rw [hcount] at hr
    unfold countNonDone at hr ⊢
    split_ifs at hadd hr <;> omega

theorem applyOp_inv (q : QueueState) (op : QueueOp) (hinv : QueueInv q) :
    QueueInv (applyOp q op) := by
  cases op with
  | acq bf np =>
    show QueueInv (acquire_next_piece q bf np).2
    rcases acquire_next_piece_cases q bf np with h | ⟨i, hget, h⟩
    · rw [h]; exact hinv
    · rw [h]
      exact queueInv_set q i 0 1 q.remaining hinv hget (by omega) (by norm_num)
  | done idx =>
    show QueueInv (mark_piece_done q idx)
    rcases mark_piece_done_cases q idx with h | ⟨hget, h⟩
    · rw [h]; exact hinv
    · rw [h]
      exact queueInv_set q idx 1 2 (q.remaining - 1) hinv hget (by omega) (by norm_num)
  | retry idx =>
    show QueueInv (mark_piece_retry q idx)
    rcases mark_piece_retry_cases q idx with h | ⟨hget, h⟩
    · rw [h]; exact hinv
    · rw [h]
      exact queueInv_set q idx 1 0 q.remaining hinv hget (by omega) (by norm_num)

theorem transPair_set (l : List Nat) (j a b : Nat) (i : Nat)
    (hget : l[j]? = some a)
    (hok : (a = 0 ∧ b = 1) ∨ (a = 1 ∧ b = 2) ∨ (a = 1 ∧ b = 0)) :
    transPair (l[i]?) ((l.set j b)[i]?) := by
  by_cases hij : j = i
  · subst hij
    rw [List.getElem?_set_self', hget]
    show transPair (some a) (some b)
    rcases hok with ⟨rfl, rfl⟩ | ⟨rfl, rfl⟩ | ⟨rfl, rfl⟩
    · exact Or.inr (Or.inl ⟨rfl, rfl⟩)
    · exact Or.inr (Or.inr (Or.inl ⟨rfl, rfl⟩))
    · exact Or.inr (Or.inr (Or.inr ⟨rfl, rfl⟩))
  · rw [List.getElem?_set_ne hij]
    exact Or.inl rfl

theorem applyOp_transPair (q : QueueState) (op : QueueOp) (i : Nat) :
    transPair q.state[i]? ((applyOp q op).state)[i]? := by
  cases op with
  | acq bf np =>
    show transPair q.state[i]? ((acquire_next_piece q bf np).2.state)[i]?
    rcases acquire_next_piece_cases q bf np with h | ⟨j, hget, h⟩
    · rw [h]; exact Or.inl rfl
    · rw [h]
      exact transPair_set q.state j 0 1 i hget (Or.inl ⟨rfl, rfl⟩)
  | done idx =>
    show transPair q.state[i]? ((mark_piece_done q idx).state)[i]?
    rcases mark_piece_done_cases q idx with h | ⟨hget, h⟩
    · rw [h]; exact Or.inl rfl
    · rw [h]
      exact transPair_set q.state idx 1 2 i hget (Or.inr (Or.inl ⟨rfl, rfl⟩))
  | retry idx =>
    show transPair q.state[i]? ((mark_piece_retry q idx).state)[i]?
    rcases mark_piece_retry_cases q idx with h | ⟨hget, h⟩
    · rw [h]; exact Or.inl rfl
    · rw [h]
      exact transPair_set q.state idx 1 0 i hget (Or.inr (Or.inr ⟨rfl, rfl⟩))

/-- C2: every queue state reachable from the all-pending initial state by
acquire_next_piece, mark_piece_done and mark_piece_retry has all cells in
pending (0), in-progress (1) or done (2); its remaining counter equals the
number of cells not done; and every operation applied to it moves each cell
only along pending to in-progress, in-progress to done, or in-progress back
to pending (so a done cell never changes again, and a cell can enter done at
most once). -/
theorem queue_reachable_invariant (n : Nat) (q : QueueState) (h : Reachable n q) :
    (∀ c ∈ q.state, c ≤ 2) ∧
    q.remaining = (countNonDone q.state : Int) ∧
    ∀ (op : QueueOp) (i : Nat), transPair (q.state[i]?) (((applyOp q op).state)[i]?) := by
  have hinv : QueueInv q := by
    induction h with
    | init => exact queueInv_init n
    | step op _ ih => exact applyOp_inv _ op ih
  exact ⟨hinv.1, hinv.2, fun op i => applyOp_transPair q op i⟩

/-- Witness for queue_reachable_invariant at a concrete reachable state. -/
theorem queue_reachable_invariant_witness :
    (∀ c ∈ (initQueue 2).state, c ≤ 2) ∧
    (initQueue 2).remaining = (countNonDone (initQueue 2).state : Int) ∧
    ∀ (op : QueueOp) (i : Nat), transPair (((initQueue 2).state)[i]?)
      ((((applyOp (initQueue 2) op).state))[i]?) :=
  queue_reachable_invariant 2 (initQueue 2) Reachable.init

/-- C3 counterexample: the empty bitfield has no bit set for piece 0, yet
acquire_next_piece on a queue whose piece 0 is pending returns piece 0
rather than none, refuting the claim that acquisition requires the piece's
bit to be set in the given bitfield. -/
theorem acquire_empty_bitfield_refutes_claim :
    bitfield_has_piece [] 0 = false ∧
    (acquire_next_piece ⟨[0], 1⟩ [] 1).1 = some 0 := by
  constructor
  · rfl
  · rfl

/-- C3 (amended): for a queue state satisfying the queue invariant on the
remaining counter, with num_pieces within the cell array, and a nonempty
bitfield, acquire_next_piece returns the lowest-indexed pending piece whose
bit is set in the bitfield and marks exactly that cell in-progress; when no
pending piece has its bit set it returns none and leaves the state
unchanged.  (The empty bitfield is instead treated as owning every piece;
see acquire_empty_bitfield_lowest.) -/
theorem acquire_next_piece_spec (q : QueueState) (bf : List Nat) (np : Nat)
    (hlen : np ≤ q.state.length)
    (hinv : q.remaining = (countNonDone q.state : Int))
    (hbf : bf ≠ []) :
    (∀ i q', acquire_next_piece q bf np = (some i, q') →
      i < np ∧ q.state[i]? = some 0 ∧ bitfield_has_piece bf i = true ∧
      (∀ k, k < i → ¬(q.state[k]? = some 0 ∧ bitfield_has_piece bf k = true)) ∧
      q' = { q with state := q.state.set i 1 }) ∧
    ((acquire_next_piece q bf np).1 = none →
      (acquire_next_piece q bf np).2 = q ∧
      ∀ k, k < np → ¬(q.state[k]? = some 0 ∧ bitfield_has_piece bf k = true)) := by
  constructor
  · intro i q' h
    unfold acquire_next_piece at h
    by_cases hr : q.remaining ≤ 0
    · rw [if_pos hr] at h
      simp [Prod.ext_iff] at h
    · rw [if_neg hr] at h
      cases hloop : acquireLoop bf q.state 0 np with
      | none => rw [hloop] at h; simp [Prod.ext_iff] at h
      | some j =>
        rw [hloop] at h
        injection h with hfst hsnd
        injection hfst with hij
        subst hij
        subst hsnd
        obtain ⟨_, hlt, hget, hhas, hmin⟩ := acquireLoop_some bf q.state 0 np j hloop
        refine ⟨by omega, by simpa using hget, ?_, ?_, rfl⟩
        · rcases hhas with hnil | hh
          · exact absurd hnil hbf
          · exact hh
        · intro k hk hcond
          exact hmin k (Nat.zero_le k) hk (by simpa using ⟨hcond.1, Or.inr hcond.2⟩)
  · intro h
    unfold acquire_next_piece at h ⊢
    by_cases hr : q.remaining ≤ 0
    · rw [if_pos hr] at h ⊢
      refine ⟨rfl, ?_⟩
      intro k hk hcond
      have hpos := countNonDone_pos hcond.1
      rw [hinv] at hr
      omega
    · rw [if_neg hr] at h ⊢
      cases hloop : acquireLoop bf q.state 0 np with
      | none =>
        refine ⟨rfl, ?_⟩
        intro k hk hcond
        exact acquireLoop_none bf q.state 0 np hloop hlen k (Nat.zero_le k) (by omega)
          ⟨by simpa using hcond.1, Or.inr hcond.2⟩
      | some j => rw [hloop] at h; simp at h

/-- Witness for acquire_next_piece_spec at a concrete queue and bitfield. -/
theorem acquire_next_piece_spec_witness :
    (∀ i q', acquire_next_piece ⟨[2, 0], 1⟩ [64] 2 = (some i, q') →
      i < 2 ∧ (⟨[2, 0], 1⟩ : QueueState).state[i]? = some 0 ∧
      bitfield_has_piece [64] i = true ∧
      (∀ k, k < i → ¬((⟨[2, 0], 1⟩ : QueueState).state[k]? = some 0 ∧
        bitfield_has_piece [64] k = true)) ∧
      q' = { (⟨[2, 0], 1⟩ : QueueState) with state := [2, 0].set i 1 }) ∧
    ((acquire_next_piece ⟨[2, 0], 1⟩ [64] 2).1 = none →
      (acquire_next_piece ⟨[2, 0], 1⟩ [64] 2).2 = ⟨[2, 0], 1⟩ ∧
      ∀ k, k < 2 → ¬((⟨[2, 0], 1⟩ : QueueState).state[k]? = some 0 ∧
        bitfield_has_piece [64] k = true)) :=
  acquire_next_piece_spec ⟨[2, 0], 1⟩ [64] 2 (by decide) (by decide) (by decide)

/-- C10: on a queue state satisfying the remaining-counter invariant that
still has a pending piece within range, acquire_next_piece called with the
empty bitfield (no bits set) does not return none: it returns the lowest
pending index and marks it in-progress, i.e. an empty bitfield is treated
as if the peer owned every piece. -/
theorem acquire_empty_bitfield_lowest (q : QueueState) (np : Nat)
    (hlen : np ≤ q.state.length)
    (hinv : q.remaining = (countNonDone q.state : Int))
    (i0 : Nat) (hi0 : i0 < np) (hp0 : q.state[i0]? = some 0) :
    ∃ i, i ≤ i0 ∧ q.state[i]? = some 0 ∧
      (∀ k, k < i → q.state[k]? ≠ some 0) ∧
      acquire_next_piece q [] np = (some i, { q with state := q.state.set i 1 }) := by
  have hr : ¬ q.remaining ≤ 0 := by
    have := countNonDone_pos hp0
    rw [hinv]
    omega
  cases hloop : acquireLoop ([] : List Nat) q.state 0 np with
  | none =>
    exfalso
    exact acquireLoop_none [] q.state 0 np hloop hlen i0 (Nat.zero_le i0) (by omega)
      ⟨by simpa using hp0, Or.inl rfl⟩
  | some j =>
    obtain ⟨_, hlt, hget, _, hmin⟩ := acquireLoop_some [] q.state 0 np j hloop
    have hji : j ≤ i0 := by
      by_contra hgt
      exact hmin i0 (Nat.zero_le i0) (by omega) ⟨by simpa using hp0, Or.inl rfl⟩
    refine ⟨j, hji, by simpa using hget, ?_, ?_⟩
    · intro k hk hp
      exact hmin k (Nat.zero_le k) hk ⟨by simpa using hp, Or.inl rfl⟩
    · unfold acquire_next_piece
      rw [if_neg hr, hloop]

/-- Witness for acquire_empty_bitfield_lowest at a concrete queue. -/
theorem acquire_empty_bitfield_lowest_witness :
    ∃ i, i ≤ 1 ∧ (⟨[2, 0, 0], 2⟩ : QueueState).state[i]? = some 0 ∧
      (∀ k, k < i → (⟨[2, 0, 0], 2⟩ : QueueState).state[k]? ≠ some 0) ∧
      acquire_next_piece ⟨[2, 0, 0], 2⟩ [] 3 =
        (some i, { (⟨[2, 0, 0], 2⟩ : QueueState) with state := [2, 0, 0].set i 1 }) :=
  acquire_empty_bitfield_lowest ⟨[2, 0, 0], 2⟩ 3 (by decide)
    (by decide) 1 (by decide) (by decide)

/-! ## Wire framing and handshake

recv_exact blocks until exactly the requested number of bytes arrived and
throws when the peer closes first; over a deterministic byte stream this is
a prefix split.  recv_peer_message reads the 4-byte big-endian length
prefix, then that many bytes; length 0 is a keep-alive. -/

/-- Embeds recv_exact over the remaining byte stream: the first length bytes
and the rest, or none (peer closed / receive failure) when the stream ends
first. -/
def recv_exact (stream : List Nat) (length : Nat) : Option (List Nat × List Nat) :=
  if length ≤ stream.length then some (stream.take length, stream.drop length)
  else none

/-- Embeds read_u32_be: big-endian 32-bit read at an offset. -/
def read_u32_be (buf : List Nat) (offset : Nat) : Nat :=
  ((buf.getD offset 0) <<< 24) ||| ((buf.getD (offset + 1) 0) <<< 16) |||
    ((buf.getD (offset + 2) 0) <<< 8) ||| buf.getD (offset + 3) 0

/-- Embeds struct PeerMessage. -/
structure PeerMessage where
  length : Nat
  keepalive : Bool
  id : Nat
  payload : List Nat
deriving DecidableEq

/-- Embeds recv_peer_message: read the 4-byte length prefix; length 0 is a
keep-alive; otherwise read exactly that many bytes, the first being the
message id and the rest the payload.  There is no size check of any kind on
the length before the second read. -/
def recv_peer_message (stream : List Nat) : Option (PeerMessage × List Nat) :=
  match recv_exact stream 4 with
  | none => none
  | some (lenBytes, rest1) =>
    let len := read_u32_be lenBytes 0
    if len = 0 then some (⟨0, true, 0, []⟩, rest1)
    else
      match recv_exact rest1 len with
      | none => none
      | some (body, rest2) => some (⟨len, false, body.getD 0 0, body.drop 1⟩, rest2)

/-- C9 counterexample: a frame whose declared length is 4294967295 bytes, far
above the spec's example cap of 1 MiB plus header, is accepted in full by
recv_peer_message rather than rejected, so no Oversized failure exists and
the bytes read for one frame are not bounded by any implementation cap. -/
theorem recv_peer_message_replicate (n : Nat) (hn : 0 < n)
    (hlen : read_u32_be (List.replicate 4 255) 0 = n) :
    recv_peer_message (List.replicate 4 255 ++ List.replicate n 7) =
      some (⟨n, false, (List.replicate n 7).getD 0 0, (List.replicate n 7).drop 1⟩, []) := by
  have h1 : recv_exact (List.replicate 4 255 ++ List.replicate n 7) 4 =
      some (List.replicate 4 255, List.replicate n 7) := by
    unfold recv_exact
    rw [if_pos (by simp)]
    rw [List.take_append_eq_append_take, List.drop_append_eq_append_drop]
    simp
  have h2 : recv_exact (List.replicate n 7) n = some (List.replicate n 7, []) := by
    unfold recv_exact
    rw [if_pos (by simp)]
    simp
  unfold recv_peer_message
  rw [h1]
  simp only [hlen]
  rw [if_neg (by omega), h2]

theorem recv_no_oversized_cap :
    1048576 + 1 < 4294967295 ∧
    read_u32_be (List.replicate 4 255) 0 = 4294967295 ∧
    (recv_peer_message
      (List.replicate 4 255 ++ List.replicate 4294967295 7)).isSome = true := by
  refine ⟨by norm_num, by decide, ?_⟩
  rw [recv_peer_message_replicate 4294967295 (by norm_num) (by decide)]
  rfl

/-- C9 (amended): recv_peer_message reads exactly 4 + L bytes where L is the
4-byte big-endian length prefix, yielding a keep-alive when L = 0, and fails
(peer closed) when the stream ends mid-frame; but there is no Oversized cap:
every L whose bytes are present is accepted, however large (see
recv_no_oversized_cap). -/
theorem recv_peer_message_spec (stream : List Nat) :
    (stream.length < 4 → recv_peer_message stream = none) ∧
    (4 ≤ stream.length →
      (read_u32_be (stream.take 4) 0 = 0 →
        recv_peer_message stream = some (⟨0, true, 0, []⟩, stream.drop 4)) ∧
      (0 < read_u32_be (stream.take 4) 0 →
        4 + read_u32_be (stream.take 4) 0 ≤ stream.length →
        recv_peer_message stream =
          some (⟨read_u32_be (stream.take 4) 0, false,
            ((stream.drop 4).take (read_u32_be (stream.take 4) 0)).getD 0 0,
            ((stream.drop 4).take (read_u32_be (stream.take 4) 0)).drop 1⟩,
            stream.drop (4 + read_u32_be (stream.take 4) 0))) ∧
      (0 < read_u32_be (stream.take 4) 0 →
        stream.length < 4 + read_u32_be (stream.take 4) 0 →
        recv_peer_message stream = none)) := by
  constructor
  · intro hshort
    unfold recv_peer_message recv_exact
    rw [if_neg (by omega)]
  · intro hlong
    have h1 : recv_exact stream 4 = some (stream.take 4, stream.drop 4) := by
      unfold recv_exact
      rw [if_pos hlong]
    refine ⟨?_, ?_, ?_⟩
    · intro hzero
      unfold recv_peer_message
      rw [h1]
      simp [hzero]
    · intro hpos hfit
      unfold recv_peer_message
      rw [h1]
      simp only
      rw [if_neg (by omega)]
      have h2 : recv_exact (stream.drop 4) (read_u32_be (stream.take 4) 0) =
          some ((stream.drop 4).take (read_u32_be (stream.take 4) 0),
            (stream.drop 4).drop (read_u32_be (stream.take 4) 0)) := by
        unfold recv_exact
        rw [if_pos (by simp [List.length_drop]; omega)]
      rw [h2, List.drop_drop]
    · intro hpos hnofit
      unfold recv_peer_message
      rw [h1]
      simp only
      rw [if_neg (by omega)]
      have h2 : recv_exact (stream.drop 4) (read_u32_be (stream.take 4) 0) = none := by
        unfold recv_exact
        rw [if_neg (by simp [List.length_drop]; omega)]
      rw [h2]

/-- Witness for recv_peer_message_spec at a concrete five-byte frame. -/
theorem recv_peer_message_spec_witness :
    recv_peer_message [0, 0, 0, 1, 7] = some (⟨1, false, 7, []⟩, []) := by
  have h := (recv_peer_message_spec [0, 0, 0, 1, 7]).2 (by norm_num)
  have h2 := h.2.1 (by decide) (by decide)
  simpa using h2

/-- The 19 protocol-literal bytes of the BitTorrent handshake. -/
def btProtocolBytes : List Nat := "BitTorrent protocol".toList.map Char.toNat

/-- Embeds the response-validation half of perform_handshake: after the
68-byte response arrives, fail when its first byte is not 19 or bytes 1..19
differ from the protocol literal; otherwise return bytes 48..67 as the
remote peer id together with the extension capability read from bit 0x10 of
reserved byte 25. -/
def perform_handshake_validate (response : List Nat) : Option (List Nat × Bool) :=
  if response.getD 0 0 ≠ 19 ∨ (response.drop 1).take 19 ≠ btProtocolBytes then none
  else some ((response.drop 48).take 20, ((response.getD 25 0) &&& 16) != 0)

/-- C5: on a 68-byte handshake response, validation fails exactly when the
first byte is not 0x13 or bytes 1..19 differ from the literal
BitTorrent protocol; on success the returned remote peer id is the 20 bytes
48..67 of the response, and the recorded extension capability is true
exactly when reserved byte 25 has bit 0x10 set. -/
theorem perform_handshake_spec (r : List Nat) (h : r.length = 68) :
    (perform_handshake_validate r = none ↔
      (r.getD 0 0 ≠ 19 ∨ (r.drop 1).take 19 ≠ btProtocolBytes)) ∧
    (∀ pid ext, perform_handshake_validate r = some (pid, ext) →
      pid = (r.drop 48).take 20 ∧ pid.length = 20 ∧
      (ext = true ↔ (r.getD 25 0) &&& 16 ≠ 0)) := by
  constructor
  · constructor
    · intro hnone
      unfold perform_handshake_validate at hnone
      by_cases hc : r.getD 0 0 ≠ 19 ∨ (r.drop 1).take 19 ≠ btProtocolBytes
      · exact hc
      · rw [if_neg hc] at hnone
        exact absurd hnone (by simp)
    · intro hc
      unfold perform_handshake_validate
      rw [if_pos hc]
  · intro pid ext hsome
    unfold perform_handshake_validate at hsome
    by_cases hc : r.getD 0 0 ≠ 19 ∨ (r.drop 1).take 19 ≠ btProtocolBytes
    · rw [if_pos hc] at hsome
      exact absurd hsome (by simp)
    · rw [if_neg hc] at hsome
      injection hsome with hsome
      injection hsome with hpid hext
      refine ⟨hpid.symm, ?_, ?_⟩
      · rw [← hpid]
        simp [List.length_take, List.length_drop, h]
      · rw [← hext]
        constructor
        · intro hb
          simpa using hb
        · intro hb
          simpa using hb

/-- Witness for perform_handshake_spec at a concrete valid 68-byte response. -/
theorem perform_handshake_spec_witness :
    (perform_handshake_validate
        ([19] ++ btProtocolBytes ++ [0, 0, 0, 0, 0, 16, 0, 0] ++
          List.replicate 20 1 ++ List.replicate 20 2) = none ↔
      (([19] ++ btProtocolBytes ++ [0, 0, 0, 0, 0, 16, 0, 0] ++
          List.replicate 20 1 ++ List.replicate 20 2).getD 0 0 ≠ 19 ∨
        (([19] ++ btProtocolBytes ++ [0, 0, 0, 0, 0, 16, 0, 0] ++
          List.replicate 20 1 ++ List.replicate 20 2).drop 1).take 19 ≠ btProtocolBytes)) ∧
    (∀ pid ext, perform_handshake_validate
        ([19] ++ btProtocolBytes ++ [0, 0, 0, 0, 0, 16, 0, 0] ++
          List.replicate 20 1 ++ List.replicate 20 2) = some (pid, ext) →
      pid = (([19] ++ btProtocolBytes ++ [0, 0, 0, 0, 0, 16, 0, 0] ++
          List.replicate 20 1 ++ List.replicate 20 2).drop 48).take 20 ∧
      pid.length = 20 ∧
      (ext = true ↔ (([19] ++ btProtocolBytes ++ [0, 0, 0, 0, 0, 16, 0, 0] ++
          List.replicate 20 1 ++ List.replicate 20 2).getD 25 0) &&& 16 ≠ 0)) :=
  perform_handshake_spec _ (by decide)

/-! ## Download command finalization

The download command records worker failures under err_mu: each catch block
assigns last_error only when it is still empty, so with several failing
workers the first observed error is kept and every later one is dropped.
After all workers have been joined, a still-positive remaining counter makes
the command throw that recorded error (or the generic message when none was
recorded); only otherwise is the in-memory buffer written out. -/

/-- Embeds one catch block of the worker threads: the error message is
recorded only while no error has been recorded yet (last_error.empty()), so
the first observed error wins.  The catch-all block behaves the same with
the fixed message worker failed. -/
def record_worker_error (lastError : String) (e : String) : String :=
  if lastError = "" then e else lastError

/-- The last_error string after a sequence of worker error observations,
starting from the empty string. -/
def record_worker_errors (errs : List String) : String :=
  errs.foldl record_worker_error ""

/-- Embeds the tail of the download command after every worker thread has
been joined: when the queue's remaining counter is still positive the
command throws, naming the recorded worker error or the generic message;
only otherwise is the in-memory buffer written out. -/
def download_finalize (remaining : Int) (lastError : String) (fileData : List Nat) :
    Except String (List Nat) :=
  if remaining > 0 then
    Except.error (if lastError = "" then "Download incomplete" else lastError)
  else Except.ok fileData

theorem record_worker_error_keeps (acc : String) (h : acc ≠ "") :
    ∀ errs : List String, errs.foldl record_worker_error acc = acc := by
  intro errs
  induction errs with
  | nil => rfl
  | cons e rest ih =>
    show rest.foldl record_worker_error (record_worker_error acc e) = acc
    rw [show record_worker_error acc e = acc from by
      unfold record_worker_error
      rw [if_neg h]]
    exact ih

/-- The recorded error is the first nonempty worker error, when any. -/
theorem record_worker_errors_first :
    ∀ errs : List String,
      record_worker_errors errs = ((errs.find? (fun e => e != "")).getD "") := by
  intro errs
  induction errs with
  | nil => rfl
  | cons e rest ih =>
    by_cases he : e = ""
    · subst he
      show rest.foldl record_worker_error (record_worker_error "" "") = _
      rw [show record_worker_error "" "" = "" from rfl]
      rw [show (("" :: rest).find? (fun e => e != "")) = rest.find? (fun e => e != "") from by
        rw [List.find?_cons_of_neg]
        simp]
      exact ih
    · show rest.foldl record_worker_error (record_worker_error "" e) = _
      rw [show record_worker_error "" e = e from by unfold record_worker_error; rw [if_pos rfl]]
      rw [record_worker_error_keeps e he rest]
      rw [List.find?_cons_of_pos]
      · rfl
      · simpa using he

/-- C6 counterexample: with two failing workers observed in the order
peer closed then timeout, the code records and surfaces the first error,
peer closed, not the last observed error, timeout, refuting the claim that
the command failure names the last observed worker error. -/
theorem download_finalize_not_last_error :
    record_worker_errors ["peer closed", "timeout"] = "peer closed" ∧
    download_finalize 1 (record_worker_errors ["peer closed", "timeout"]) [7] =
      Except.error "peer closed" ∧
    Except.error "peer closed" ≠ (Except.error "timeout" : Except String (List Nat)) := by
  refine ⟨rfl, rfl, by simp⟩

/-- C6 (amended): with the remaining counter nonnegative (as the queue
invariant guarantees), the output buffer is flushed if and only if
remaining = 0; any flushed bytes are exactly the buffer; and when remaining
is nonzero the command fails with the first observed nonempty worker error
(the catch blocks record an error only while none has been recorded), or
the generic download-incomplete message when no nonempty error was
observed, flushing nothing. -/
theorem download_finalize_first_error_spec (remaining : Int) (errs : List String)
    (buf : List Nat) (hr : 0 ≤ remaining) :
    (download_finalize remaining (record_worker_errors errs) buf = Except.ok buf ↔
      remaining = 0) ∧
    (∀ out, download_finalize remaining (record_worker_errors errs) buf = Except.ok out →
      out = buf) ∧
    (remaining ≠ 0 →
      download_finalize remaining (record_worker_errors errs) buf =
        Except.error ((errs.find? (fun e => e != "")).getD "Download incomplete")) := by
  unfold download_finalize
  by_cases hpos : remaining > 0
  · rw [if_pos hpos]
    refine ⟨⟨fun h => absurd h (by simp), fun h => absurd h (by omega)⟩, ?_, fun _ => ?_⟩
    · intro out h
      exact absurd h (by simp)
    · rw [record_worker_errors_first errs]
      cases hf : errs.find? (fun e => e != "") with
      | none => rfl
      | some e =>
        have hne : e ≠ "" := by
          have := List.find?_some hf
          simpa using this
        show Except.error (if e = "" then "Download incomplete" else e) = Except.error e
        rw [if_neg hne]
  · rw [if_neg hpos]
    refine ⟨⟨fun _ => by omega, fun _ => rfl⟩, ?_, fun hne => absurd (by omega) hne⟩
    intro out h
    injection h with h
    exact h.symm

/-- Witness for download_finalize_first_error_spec at a concrete incomplete
download with one recorded error. -/
theorem download_finalize_first_error_witness :
    (download_finalize 1 (record_worker_errors ["timeout"]) [5] = Except.ok [5] ↔
      (1 : Int) = 0) ∧
    (∀ out, download_finalize 1 (record_worker_errors ["timeout"]) [5] = Except.ok out →
      out = [5]) ∧
    ((1 : Int) ≠ 0 →
      download_finalize 1 (record_worker_errors ["timeout"]) [5] =
        Except.error ((["timeout"].find? (fun e => e != "")).getD "Download incomplete")) :=
  download_finalize_first_error_spec 1 ["timeout"] [5] (by norm_num)

/-! ## Block-level piece download

download_piece_from_peer fetches a piece block by block.  For each block it
sends a request and then consumes incoming messages: choke enters a waiting
state that only unchoke leaves (after which the request is re-sent), a piece
message must carry at least 8 payload bytes, and only a piece message whose
index and begin match the outstanding request completes the block; all other
messages are skipped.  Sends do not consume incoming messages, so the
observable behaviour is a state machine over the incoming message list with
a choked flag. -/

/-- An incoming, already deframed peer message. -/
inductive PeerMsg where
  | keepalive
  | msg (id : Nat) (payload : List Nat)
deriving DecidableEq

/-- Embeds the receive loop of download_piece_from_peer for one outstanding
request (index, begin, reqLen), together with wait_for_unchoke: in the
choked state (wait_for_unchoke) only unchoke changes anything; in the
unchoked state choke re-enters waiting, a piece message with fewer than 8
payload bytes is an error, a piece message for another (index, begin) is
skipped, a matching one must carry exactly reqLen data bytes and completes
the block; everything else is skipped. -/
def processBlock (pieceIndex begin reqLen : Nat) :
    Bool → List PeerMsg → Option (List Nat × List PeerMsg)
  | _, [] => none
  | true, m :: ms =>
    match m with
    | .keepalive => processBlock pieceIndex begin reqLen true ms
    | .msg 1 _ => processBlock pieceIndex begin reqLen false ms
    | .msg _ _ => processBlock pieceIndex begin reqLen true ms
  | false, m :: ms =>
    match m with
    | .keepalive => processBlock pieceIndex begin reqLen false ms
    | .msg 0 _ => processBlock pieceIndex begin reqLen true ms
    | .msg 1 _ => processBlock pieceIndex begin reqLen false ms
    | .msg 7 payload =>
      if payload.length < 8 then none
      else if read_u32_be payload 0 ≠ pieceIndex ∨ read_u32_be payload 4 ≠ begin then
        processBlock pieceIndex begin reqLen false ms
      else if (payload.drop 8).length ≠ reqLen then none
      else some (payload.drop 8, ms)
    | .msg _ _ => processBlock pieceIndex begin reqLen false ms

/-- Embeds the memcpy of a received block into the piece buffer at its
begin offset. -/
def writeAt (buf : List Nat) (offset : Nat) (block : List Nat) : List Nat :=
  buf.take offset ++ block ++ buf.drop (offset + block.length)

/-- The (begin, length) pairs of the block loop: begins 0, 16384, 32768, ...
below pieceSize, each of length min 16384 (pieceSize - begin); the fuel
argument is only an upper bound on the iteration count. -/
def blockListAux : Nat → Nat → Nat → List (Nat × Nat)
  | 0, _, _ => []
  | fuel + 1, b, pieceSize =>
    if b < pieceSize then
      (b, min 16384 (pieceSize - b)) :: blockListAux fuel (b + 16384) pieceSize
    else []

def blockList (pieceSize : Nat) : List (Nat × Nat) :=
  blockListAux pieceSize 0 pieceSize

/-- Embeds the outer block loop of download_piece_from_peer: fetch each
block in order, threading the remaining message stream, and memcpy each
received block at its begin offset. -/
def downloadBlocks (pieceIndex : Nat) :
    List (Nat × Nat) → List PeerMsg → List Nat → Option (List Nat × List PeerMsg)
  | [], msgs, buf => some (buf, msgs)
  | (b, len) :: blocks, msgs, buf =>
    match processBlock pieceIndex b len false msgs with
    | none => none
    | some (block, rest) => downloadBlocks pieceIndex blocks rest (writeAt buf b block)

/-- Embeds download_piece_from_peer: the piece buffer starts as pieceSize
zero bytes (std::string resize) and is filled block by block. -/
def download_piece_from_peer (msgs : List PeerMsg) (pieceIndex pieceSize : Nat) :
    Option (List Nat × List PeerMsg) :=
  downloadBlocks pieceIndex (blockList pieceSize) msgs (List.replicate pieceSize 0)

/-- A successful block receive yields exactly reqLen bytes, taken from a
matching piece message, and the remaining stream is the suffix after that
message. -/
theorem processBlock_some (pieceIndex begin reqLen : Nat) :
    ∀ (msgs : List PeerMsg) (choked : Bool) (block : List Nat) (rest : List PeerMsg),
      processBlock pieceIndex begin reqLen choked msgs = some (block, rest) →
      block.length = reqLen ∧
      ∃ pre payload, msgs = pre ++ PeerMsg.msg 7 payload :: rest ∧
        read_u32_be payload 0 = pieceIndex ∧ read_u32_be payload 4 = begin ∧
        8 ≤ payload.length ∧ payload.drop 8 = block := by
  intro msgs
  induction msgs with
  | nil => intro choked block rest h; cases choked <;> simp [processBlock] at h
  | cons m ms ih =>
    intro choked block rest h
    have step : ∀ choked', processBlock pieceIndex begin reqLen choked' ms = some (block, rest) →
        block.length = reqLen ∧
        ∃ pre payload, m :: ms = pre ++ PeerMsg.msg 7 payload :: rest ∧
          read_u32_be payload 0 = pieceIndex ∧ read_u32_be payload 4 = begin ∧
          8 ≤ payload.length ∧ payload.drop 8 = block := by
      intro choked' h'
      obtain ⟨hlen, pre, payload, hsplit, hidx, hbeg, hplen, hdata⟩ := ih choked' block rest h'
      exact ⟨hlen, m :: pre, payload, by rw [hsplit]; rfl, hidx, hbeg, hplen, hdata⟩
    cases choked with
    | true =>
      cases m with
      | keepalive => exact step true h
      | msg id payload =>
        match id with
        | 0 => exact step true h
        | 1 => exact step false h
        | 2 => exact step true h
        | 3 => exact step true h
        | 4 => exact step true h
        | 5 => exact step true h
        | 6 => exact step true h
        | 7 => exact step true h
        | n + 8 => exact step true h
    | false =>
      cases m with
      | keepalive => exact step false h
      | msg id payload =>
        match id with
        | 0 => exact step true h
        | 1 => exact step false h
        | 2 => exact step false h
        | 3 => exact step false h
        | 4 => exact step false h
        | 5 => exact step false h
        | 6 => exact step false h
        | 7 =>
          simp only [processBlock] at h
          by_cases hshort : payload.length < 8
          · rw [if_pos hshort] at h
            exact absurd h (by simp)
          · rw [if_neg hshort] at h
            by_cases hmatch : read_u32_be payload 0 ≠ pieceIndex ∨ read_u32_be payload 4 ≠ begin
            · rw [if_pos hmatch] at h
              exact step false h
            · rw [if_neg hmatch] at h
              push_neg at hmatch
              by_cases hlen : (payload.drop 8).length ≠ reqLen
              · rw [if_pos hlen] at h
                exact absurd h (by simp)
              · rw [if_neg hlen] at h
                push_neg at hlen
                injection h with h
                injection h with hblock hrest
                subst hblock
                subst hrest
                exact ⟨hlen, [], payload, rfl, hmatch.1, hmatch.2, by omega, rfl⟩
        | n + 8 => exact step false h

/-- C4: in download_piece_from_peer's receive loop, a piece message carrying
an (index, begin) pair different from the outstanding request is discarded
without any other effect on the computation (so the result is invariant
under inserting, duplicating or reordering such messages); a completed
block always has exactly the requested length and comes from a message
whose (index, begin) equals the outstanding request; and the memcpy places
the block at exactly its begin offset, leaving the rest of the piece buffer
unchanged. -/
theorem download_piece_matching_spec :
    (∀ pieceIndex begin reqLen payload ms,
      8 ≤ payload.length →
      (read_u32_be payload 0 ≠ pieceIndex ∨ read_u32_be payload 4 ≠ begin) →
      processBlock pieceIndex begin reqLen false (PeerMsg.msg 7 payload :: ms) =
        processBlock pieceIndex begin reqLen false ms) ∧
    (∀ pieceIndex begin reqLen choked msgs block rest,
      processBlock pieceIndex begin reqLen choked msgs = some (block, rest) →
      block.length = reqLen ∧
      ∃ pre payload, msgs = pre ++ PeerMsg.msg 7 payload :: rest ∧
        read_u32_be payload 0 = pieceIndex ∧ read_u32_be payload 4 = begin ∧
        8 ≤ payload.length ∧ payload.drop 8 = block) ∧
    (∀ buf offset block, offset + block.length ≤ buf.length →
      ((writeAt buf offset block).drop offset).take block.length = block ∧
      (writeAt buf offset block).take offset = buf.take offset ∧
      ((writeAt buf offset block).drop (offset + block.length) =
        buf.drop (offset + block.length)) ∧
      (writeAt buf offset block).length = buf.length) := by
  refine ⟨?_, ?_, ?_⟩
  · intro pieceIndex begin reqLen payload ms hplen hmismatch
    simp only [processBlock]
    rw [if_neg (by omega), if_pos hmismatch]
  · intro pieceIndex begin reqLen choked msgs block rest h
    exact processBlock_some pieceIndex begin reqLen msgs choked block rest h
  · intro buf offset block hfit
    have hto : (buf.take offset).length = offset := by
      rw [List.length_take]
      omega
    have e1 : ∀ n, offset ≤ n → List.drop n (List.take offset buf) = [] := by
      intro n hn
      apply List.drop_eq_nil_of_le
      rw [List.length_take]
      omega
    refine ⟨?_, ?_, ?_, ?_⟩
    · unfold writeAt
      rw [List.append_assoc, List.drop_append_eq_append_drop, hto]
      rw [e1 offset (Nat.le_refl offset), Nat.sub_self, List.drop_zero, List.nil_append]
      rw [List.take_append_eq_append_take, List.take_length, Nat.sub_self, List.take_zero,
        List.append_nil]
    · unfold writeAt
      rw [List.append_assoc, List.take_append_eq_append_take, List.take_take, Nat.min_self,
        hto, Nat.sub_self, List.take_zero, List.append_nil]
    · unfold writeAt
      rw [List.append_assoc, List.drop_append_eq_append_drop, List.drop_append_eq_append_drop,
        hto]
      have e2 : offset + block.length - offset = block.length := by omega
      rw [e1 (offset + block.length) (by omega), e2, List.drop_length, Nat.sub_self,
        List.drop_zero, List.nil_append, List.nil_append]
    · unfold writeAt
      rw [List.length_append, List.length_append, List.length_take, List.length_drop]
      omega

/-- Witness for download_piece_matching_spec: its three parts applied at a
concrete mismatched message, a concrete successful run, and a concrete
buffer write. -/
theorem download_piece_matching_spec_witness :
    processBlock 0 0 1 false
        (PeerMsg.msg 7 [0, 0, 0, 1, 0, 0, 0, 0, 9] :: [PeerMsg.msg 7 [0, 0, 0, 0, 0, 0, 0, 0, 5]]) =
      processBlock 0 0 1 false [PeerMsg.msg 7 [0, 0, 0, 0, 0, 0, 0, 0, 5]] ∧
    ([5] : List Nat).length = 1 ∧
    (((writeAt [9, 9, 9] 1 [5]).drop 1).take 1 = [5] ∧
      (writeAt [9, 9, 9] 1 [5]).take 1 = [9, 9, 9].take 1 ∧
      (writeAt [9, 9, 9] 1 [5]).drop 2 = [9, 9, 9].drop 2 ∧
      (writeAt [9, 9, 9] 1 [5]).length = 3) := by
  refine ⟨?_, ?_, ?_⟩
  · exact download_piece_matching_spec.1 0 0 1 [0, 0, 0, 1, 0, 0, 0, 0, 9]
      [PeerMsg.msg 7 [0, 0, 0, 0, 0, 0, 0, 0, 5]] (by norm_num) (by left; decide)
  · exact (download_piece_matching_spec.2.1 0 0 1 false
      [PeerMsg.msg 7 [0, 0, 0, 0, 0, 0, 0, 0, 5]] [5] [] (by decide)).1
  · have h := download_piece_matching_spec.2.2 [9, 9, 9] 1 [5] (by norm_num)
    simpa using h

/-! ## Download worker

One iteration of download_worker's loop body: acquire a piece, compute its
offset and size, fetch it, hash-check it against the digest at offset
20 * i of the pieces blob, and only then copy it into the shared output
buffer at the piece's own range; any failure instead releases the piece
(the catch block runs mark_piece_retry).  SHA-1 itself is an opaque
function parameter here: the claim only requires that the written data's
digest equals the expected digest. -/

/-- Every (begin, length) pair of the block loop stays inside the piece. -/
theorem blockListAux_bounds :
    ∀ (fuel b0 ps : Nat) (bl : Nat × Nat), bl ∈ blockListAux fuel b0 ps →
      bl.1 + bl.2 ≤ ps := by
  intro fuel
  induction fuel with
  | zero => intro b0 ps bl h; simp [blockListAux] at h
  | succ f ih =>
    intro b0 ps bl h
    simp only [blockListAux] at h
    by_cases hb : b0 < ps
    · rw [if_pos hb] at h
      rcases List.mem_cons.mp h with rfl | hmem
      · simp only
        omega
      · exact ih _ _ _ hmem
    · rw [if_neg hb] at h
      simp at h

theorem writeAt_length (buf : List Nat) (offset : Nat) (block : List Nat)
    (h : offset + block.length ≤ buf.length) :
    (writeAt buf offset block).length = buf.length := by
  unfold writeAt
  rw [List.length_append, List.length_append, List.length_take, List.length_drop]
  omega

/-- The assembled piece buffer keeps its initial length when all blocks fit. -/
theorem downloadBlocks_length (pieceIndex : Nat) :
    ∀ (blocks : List (Nat × Nat)) (msgs : List PeerMsg) (buf data : List Nat)
      (rest : List PeerMsg),
      (∀ bl ∈ blocks, bl.1 + bl.2 ≤ buf.length) →
      downloadBlocks pieceIndex blocks msgs buf = some (data, rest) →
      data.length = buf.length := by
  intro blocks
  induction blocks with
  | nil =>
    intro msgs buf data rest hb h
    simp only [downloadBlocks] at h
    injection h with h
    injection h with h1 h2
    rw [← h1]
  | cons bl blocks ih =>
    intro msgs buf data rest hb h
    obtain ⟨b, len⟩ := bl
    simp only [downloadBlocks] at h
    cases hpb : processBlock pieceIndex b len false msgs with
    | none => rw [hpb] at h; exact absurd h (by simp)
    | some blockRest =>
      obtain ⟨block, rest1⟩ := blockRest
      rw [hpb] at h
      have hblen : block.length = len :=
        (processBlock_some pieceIndex b len msgs false block rest1 hpb).1
      have hfit : b + block.length ≤ buf.length := by
        have := hb (b, len) (List.mem_cons_self _ _)
        simp only at this
        omega
      have hwl : (writeAt buf b block).length = buf.length := writeAt_length buf b block hfit
      have := ih rest1 (writeAt buf b block) data rest ?_ h
      · rw [this, hwl]
      · intro bl' hbl'
        rw [hwl]
        exact hb bl' (List.mem_cons_of_mem _ hbl')

/-- A successfully downloaded piece has exactly the requested piece size. -/
theorem download_piece_length (msgs : List PeerMsg) (pieceIndex pieceSize : Nat)
    (data : List Nat) (rest : List PeerMsg)
    (h : download_piece_from_peer msgs pieceIndex pieceSize = some (data, rest)) :
    data.length = pieceSize := by
  unfold download_piece_from_peer at h
  have hb : ∀ bl ∈ blockList pieceSize, bl.1 + bl.2 ≤ (List.replicate pieceSize 0).length := by
    intro bl hbl
    have := blockListAux_bounds pieceSize 0 pieceSize bl hbl
    simpa using this
  have := downloadBlocks_length pieceIndex (blockList pieceSize) msgs
    (List.replicate pieceSize 0) data rest hb h
  simpa using this

/-- The observable outcome of one iteration of download_worker's loop body. -/
inductive IterResult where
  | noPiece
  | failed (q' : QueueState)
  | hashMismatch (q' : QueueState)
  | wrote (offset : Nat) (data : List Nat) (q' : QueueState)
deriving DecidableEq

/-- Embeds one iteration of download_worker's while loop (and, for the
failure paths, the catch block's mark_piece_retry): acquire a piece i; on
none, stop; compute piece_offset = i * piece_length and piece_size =
min piece_length (total_length - piece_offset); a negative size throws;
fetch the piece over the message stream; a digest mismatch against bytes
20 i .. 20 i + 19 of the pieces blob releases the piece without writing; a
write past the output buffer (sized total_length) throws; otherwise the
piece bytes are written at piece_offset and the piece is marked done. -/
def download_worker_iteration (q : QueueState) (bitfield : List Nat) (msgs : List PeerMsg)
    (totalLength pieceLength : Int) (piecesBlob : List Nat)
    (sha1 : List Nat → List Nat) : IterResult :=
  match acquire_next_piece q bitfield (piecesBlob.length / 20) with
  | (none, _) => .noPiece
  | (some i, q1) =>
    if min pieceLength (totalLength - i * pieceLength) < 0 then
      .failed (mark_piece_retry q1 i)
    else
      match download_piece_from_peer msgs i
        (min pieceLength (totalLength - i * pieceLength)).toNat with
      | none => .failed (mark_piece_retry q1 i)
      | some (pieceData, _) =>
        if sha1 pieceData ≠ (piecesBlob.drop (20 * i)).take 20 then
          .hashMismatch (mark_piece_retry q1 i)
        else if i * pieceLength + min pieceLength (totalLength - i * pieceLength) >
            totalLength then
          .failed (mark_piece_retry q1 i)
        else
          .wrote (i * pieceLength).toNat pieceData (mark_piece_done q1 i)

/-- C1: whenever an iteration of download_worker writes to the shared output
buffer, the write is at offset i * piece_length for the piece i the worker
acquired, its data has length min piece_length (total_length - i *
piece_length) (so it covers exactly piece i's byte range and stays inside
the buffer), and the SHA-1 of the written data equals the 20-byte digest at
offset 20 i of the pieces blob; the hash-mismatch and failure outcomes carry
no write at all, so unverified data is never written. -/
theorem download_worker_write_verified (q : QueueState) (bitfield : List Nat)
    (msgs : List PeerMsg) (totalLength pieceLength : Int) (piecesBlob : List Nat)
    (sha1 : List Nat → List Nat) (offset : Nat) (data : List Nat) (q' : QueueState)
    (h : download_worker_iteration q bitfield msgs totalLength pieceLength piecesBlob sha1 =
      IterResult.wrote offset data q') :
    ∃ i, (acquire_next_piece q bitfield (piecesBlob.length / 20)).1 = some i ∧
      (offset : Int) = i * pieceLength ∧
      (data.length : Int) = min pieceLength (totalLength - i * pieceLength) ∧
      (offset : Int) + data.length ≤ totalLength ∧
      sha1 data = (piecesBlob.drop (20 * i)).take 20 ∧
      q' = mark_piece_done (acquire_next_piece q bitfield (piecesBlob.length / 20)).2 i := by
  unfold download_worker_iteration at h
  cases hacq : acquire_next_piece q bitfield (piecesBlob.length / 20) with
  | mk oi q1 =>
    rw [hacq] at h
    cases oi with
    | none => exact absurd h (by simp)
    | some i =>
      dsimp only at h
      by_cases hneg : min pieceLength (totalLength - i * pieceLength) < 0
      · rw [if_pos hneg] at h
        exact absurd h (by simp)
      · rw [if_neg hneg] at h
        cases hdl : download_piece_from_peer msgs i
            (min pieceLength (totalLength - i * pieceLength)).toNat with
        | none => rw [hdl] at h; exact absurd h (by simp)
        | some dataRest =>
          obtain ⟨pieceData, rest⟩ := dataRest
          rw [hdl] at h
          dsimp only at h
          by_cases hhash : sha1 pieceData ≠ (piecesBlob.drop (20 * i)).take 20
          · rw [if_pos hhash] at h
            exact absurd h (by simp)
          · rw [if_neg hhash] at h
            push_neg at hhash
            by_cases hover : i * pieceLength +
                min pieceLength (totalLength - i * pieceLength) > totalLength
            · rw [if_pos hover] at h
              exact absurd h (by simp)
            · rw [if_neg hover] at h
              injection h with h1 h2 h3
              subst h1
              subst h2
              subst h3
              push_neg at hneg hover
              have hlen : pieceData.length =
                  (min pieceLength (totalLength - i * pieceLength)).toNat :=
                download_piece_length msgs i _ pieceData rest hdl
              have hplpos : 0 ≤ pieceLength := by
                rcases le_or_lt 0 pieceLength with hp | hp
                · exact hp
                · exfalso
                  have : min pieceLength (totalLength - i * pieceLength) ≤ pieceLength :=
                    min_le_left _ _
                  omega
              have hoffpos : (0 : Int) ≤ i * pieceLength := by positivity
              refine ⟨i, ?_, ?_, ?_, ?_, hhash, ?_⟩
              · rfl
              · rw [Int.toNat_of_nonneg hoffpos]
              · rw [hlen, Int.toNat_of_nonneg hneg]
              · rw [hlen, Int.toNat_of_nonneg hoffpos, Int.toNat_of_nonneg hneg]
                omega
              · rfl

/-- Witness for download_worker_write_verified at a concrete one-piece
download whose digest function accepts the transferred byte. -/
theorem download_worker_write_verified_witness :
    ∃ i, (acquire_next_piece ⟨[0], 1⟩ [] ((List.replicate 20 3).length / 20)).1 = some i ∧
      ((0 : Nat) : Int) = (i : Int) * 1 ∧
      (([42] : List Nat).length : Int) = min (1 : Int) (1 - (i : Int) * 1) ∧
      ((0 : Nat) : Int) + (([42] : List Nat).length : Int) ≤ 1 ∧
      List.replicate 20 3 = ((List.replicate 20 3).drop (20 * i)).take 20 ∧
      (⟨[2], 0⟩ : QueueState) =
        mark_piece_done (acquire_next_piece ⟨[0], 1⟩ [] ((List.replicate 20 3).length / 20)).2 i :=
  download_worker_write_verified ⟨[0], 1⟩ [] [PeerMsg.msg 7 [0, 0, 0, 0, 0, 0, 0, 0, 42]]
    1 1 (List.replicate 20 3) (fun _ => List.replicate 20 3) 0 [42] ⟨[2], 0⟩ (by decide)

/-! ## Bencode codec

The C++ decoder works on a string with a cursor; every operation it performs
(isdigit on the current byte, find from the cursor, substr from the cursor)
only looks at the remainder, so the embedding passes the remainder list
explicitly and returns the unconsumed rest.  The C++ value type is
nlohmann::json, whose objects are sorted unique-key maps; the embedding
keeps dictionary entries as an ordered-insertion list.  Bytes are modeled as
characters (the relevant code points 0..255 coincide).  Reading past the
end of the string, which for the C++ means the terminating NUL at position
size() (and undefined behaviour beyond), lands in the error branches here
exactly as the C++ lands in one of its throws. -/

/-- Embeds the json value shape produced by decode_bencoded_value: the four
Bencode variants. -/
inductive Ben where
  | str (s : List Char) : Ben
  | int (n : Int) : Ben
  | list (items : List Ben) : Ben
  | dict (entries : List (List Char × Ben)) : Ben

def Ben.isStr : Ben → Bool
  | .str _ => true
  | _ => false

/-- Decimal digit character, as emitted by std::to_string. -/
def digitChar (d : Nat) : Char := Char.ofNat (48 + d)

def natToCharsAux : Nat → Nat → List Char
  | 0, _ => []
  | fuel + 1, n => if n = 0 then [] else natToCharsAux fuel (n / 10) ++ [digitChar (n % 10)]

/-- Embeds std::to_string on a nonnegative value (the fuel only bounds the
digit count). -/
def natToChars (n : Nat) : List Char :=
  if n = 0 then ['0'] else natToCharsAux n n

/-- Embeds std::to_string on int64. -/
def intToChars (n : Int) : List Char :=
  if n < 0 then '-' :: natToChars n.natAbs else natToChars n.toNat

/-- Numeric value of a digit run, most significant first. -/
def digitsVal (s : List Char) : Nat :=
  s.foldl (fun acc c => acc * 10 + (c.toNat - 48)) 0

/-- Embeds atoll: an optional sign followed by the leading run of decimal
digits (atoll also skips leading whitespace, which cannot occur at its call
sites inside the decoder). -/
def atoll (s : List Char) : Int :=
  match s with
  | [] => 0
  | c :: rest =>
    if c = '-' then -(digitsVal (rest.takeWhile Char.isDigit) : Int)
    else if c = '+' then (digitsVal (rest.takeWhile Char.isDigit) : Int)
    else (digitsVal ((c :: rest).takeWhile Char.isDigit) : Int)

/-- Embeds std::string::find from the cursor: index of the first occurrence
of the target in the remainder, none when absent. -/
def findChar (target : Char) : List Char → Option Nat
  | [] => none
  | c :: rest => if c = target then some 0 else (findChar target rest).map (· + 1)

/-- Byte-lexicographic strict order on keys, as std::string operator less
compares. -/
def keyLt : List Char → List Char → Bool
  | [], [] => false
  | [], _ :: _ => true
  | _ :: _, [] => false
  | a :: as, b :: bs => if a < b then true else if b < a then false else keyLt as bs

/-- Embeds insertion into nlohmann's sorted unique-key object (operator
square-brackets): keep ascending key order, replace an equal key. -/
def insertEntry : List (List Char × Ben) → (List Char × Ben) → List (List Char × Ben)
  | [], e => [e]
  | f :: rest, e =>
    if keyLt e.1 f.1 then e :: f :: rest
    else if keyLt f.1 e.1 then f :: insertEntry rest e
    else e :: rest

/-- Ordered insertion of an already-encoded entry by key: the std::sort of
the collected keys in bencode_encode, applied to (key, encoded value)
pairs. -/
def sortInsertPair (e : List Char × List Char) :
    List (List Char × List Char) → List (List Char × List Char)
  | [] => [e]
  | f :: rest => if keyLt e.1 f.1 then e :: f :: rest else f :: sortInsertPair e rest

def sortPairs : List (List Char × List Char) → List (List Char × List Char)
  | [] => []
  | e :: rest => sortInsertPair e (sortPairs rest)

def flattenPairs : List (List Char × List Char) → List Char
  | [] => []
  | (k, ev) :: rest => (natToChars k.length ++ ':' :: k) ++ ev ++ flattenPairs rest

mutual
/-- Embeds bencode_encode: length-prefixed strings, i-e framed integers,
l-e framed lists, and d-e framed dictionaries whose keys are emitted in
ascending sorted order (the C++ collects the map's keys, std::sorts them --
a no-op on the already-sorted map -- and emits each key with its value). -/
def bencode_encode : Ben → List Char
  | .str s => natToChars s.length ++ ':' :: s
  | .int n => 'i' :: (intToChars n ++ ['e'])
  | .list items => 'l' :: (encodeItems items ++ ['e'])
  | .dict entries => 'd' :: (flattenPairs (sortPairs (encodePairs entries)) ++ ['e'])

def encodeItems : List Ben → List Char
  | [] => []
  | v :: rest => bencode_encode v ++ encodeItems rest

def encodePairs : List (List Char × Ben) → List (List Char × List Char)
  | [] => []
  | e :: rest => (e.1, bencode_encode e.2) :: encodePairs rest
end

/-- Embeds the byte-string branch of decode_bencoded_value: find the first
colon in the remainder, atoll the characters before it, take that many
characters after the colon (substr clamps at end of input), and continue
past them. -/
def decodeStr (s : List Char) : Option (Ben × List Char) :=
  match findChar ':' s with
  | none => none
  | some colonIdx =>
    some (.str ((s.drop (colonIdx + 1)).take (atoll (s.take colonIdx)).toNat),
      s.drop (colonIdx + 1 + (atoll (s.take colonIdx)).toNat))

/-- Embeds the integer branch: find the first e in the remainder, atoll
everything strictly between the opening i and that e, and continue past
the e. -/
def decodeInt (s : List Char) : Option (Ben × List Char) :=
  match findChar 'e' s with
  | none => none
  | some eIdx => some (.int (atoll ((s.take eIdx).drop 1)), s.drop (eIdx + 1))

mutual
/-- Embeds decode_bencoded_value on the remainder: dispatch on the first
character (digit, i, l, d, otherwise throw); the fuel argument only bounds
the recursion depth and is instantiated generously at top level. -/
def decodeBen : Nat → List Char → Option (Ben × List Char)
  | 0, _ => none
  | fuel + 1, s =>
    match s with
    | [] => none
    | c :: _ =>
      if c.isDigit then decodeStr s
      else if c = 'i' then decodeInt s
      else if c = 'l' then decodeListLoop fuel (s.drop 1) []
      else if c = 'd' then decodeDictLoop fuel (s.drop 1) []
      else none

/-- The list loop of the decoder: parse elements until the closing e. -/
def decodeListLoop : Nat → List Char → List Ben → Option (Ben × List Char)
  | 0, _, _ => none
  | fuel + 1, s, acc =>
    match s with
    | [] => none
    | c :: rest =>
      if c = 'e' then some (.list acc, rest)
      else
        match decodeBen fuel s with
        | none => none
        | some (v, s1) => decodeListLoop fuel s1 (acc ++ [v])

/-- The dictionary loop of the decoder: parse a key, parse a value, then
require the key to be a byte-string (the json get throws otherwise) and
insert the pair into the sorted map. -/
def decodeDictLoop : Nat → List Char → List (List Char × Ben) →
    Option (Ben × List Char)
  | 0, _, _ => none
  | fuel + 1, s, acc =>
    match s with
    | [] => none
    | c :: rest =>
      if c = 'e' then some (.dict acc, rest)
      else
        match decodeBen fuel s with
        | none => none
        | some (k, s1) =>
          match decodeBen fuel s1 with
          | none => none
          | some (v, s2) =>
            match k with
            | .str ks => decodeDictLoop fuel s2 (insertEntry acc (ks, v))
            | _ => none
end

/-- Embeds the one-argument decode_bencoded_value wrapper (cursor 0); the
fuel 2 * length + 2 dominates every chain of recursive calls, each of which
consumes input. -/
def decode_bencoded_value (s : List Char) : Option Ben :=
  (decodeBen (2 * s.length + 2) s).map (fun r => r.1)

/-- Bencode values all of whose dictionaries have canonically ordered
(strictly ascending) keys, and whose integers fit int64 as in the C++. -/
inductive Canonical : Ben → Prop where
  | str (s : List Char) : Canonical (.str s)
  | int (n : Int) : -(2 ^ 63) ≤ n → n < 2 ^ 63 → Canonical (.int n)
  | list (items : List Ben) : (∀ v ∈ items, Canonical v) → Canonical (.list items)
  | dict (entries : List (List Char × Ben)) :
      (∀ e ∈ entries, Canonical e.2) →
      entries.Pairwise (fun a b => keyLt a.1 b.1 = true) →
      Canonical (.dict entries)

/-! Digit and number-formatting lemmas. -/

theorem digitChar_isDigit (d : Nat) (h : d < 10) : (digitChar d).isDigit = true := by
  interval_cases d <;> decide

theorem digitChar_toNat (d : Nat) (h : d < 10) : (digitChar d).toNat = 48 + d := by
  interval_cases d <;> decide

theorem isDigit_not_special (c : Char) (h : c.isDigit = true) :
    c ≠ ':' ∧ c ≠ 'e' ∧ c ≠ '-' ∧ c ≠ '+' ∧ c ≠ 'i' ∧ c ≠ 'l' ∧ c ≠ 'd' := by
  refine ⟨?_, ?_, ?_, ?_, ?_, ?_, ?_⟩ <;> · intro he; subst he; simp at h

theorem natToCharsAux_digits :
    ∀ (fuel n : Nat), ∀ c ∈ natToCharsAux fuel n, c.isDigit = true := by
  intro fuel
  induction fuel with
  | zero => intro n c h; simp [natToCharsAux] at h
  | succ f ih =>
    intro n c h
    simp only [natToCharsAux] at h
    by_cases hn : n = 0
    · rw [if_pos hn] at h
      simp at h
    · rw [if_neg hn] at h
      rcases List.mem_append.mp h with h1 | h2
      · exact ih _ c h1
      · have := List.mem_singleton.mp h2
        subst this
        exact digitChar_isDigit _ (Nat.mod_lt _ (by norm_num))

theorem natToChars_digits (n : Nat) : ∀ c ∈ natToChars n, c.isDigit = true := by
  intro c h
  unfold natToChars at h
  by_cases hn : n = 0
  · rw [if_pos hn] at h
    have := List.mem_singleton.mp h
    subst this
    decide
  · rw [if_neg hn] at h
    exact natToCharsAux_digits n n c h

theorem natToChars_ne_nil (n : Nat) : natToChars n ≠ [] := by
  unfold natToChars
  by_cases hn : n = 0
  · rw [if_pos hn]
    simp
  · rw [if_neg hn]
    cases hm : n with
    | zero => exact absurd hm hn
    | succ m =>
      simp only [natToCharsAux, if_neg hn]
      simp

theorem digitsVal_append_one (l : List Char) (c : Char) :
    digitsVal (l ++ [c]) = digitsVal l * 10 + (c.toNat - 48) := by
  unfold digitsVal
  rw [List.foldl_append]
  rfl

theorem digitsVal_natToCharsAux : ∀ (fuel n : Nat), n ≤ fuel →
    digitsVal (natToCharsAux fuel n) = n := by
  intro fuel
  induction fuel with
  | zero =>
    intro n h
    interval_cases n
    rfl
  | succ f ih =>
    intro n h
    simp only [natToCharsAux]
    by_cases hn : n = 0
    · rw [if_pos hn, hn]
      rfl
    · rw [if_neg hn, digitsVal_append_one, ih (n / 10) (by omega),
        digitChar_toNat _ (Nat.mod_lt _ (by norm_num))]
      omega

theorem digitsVal_natToChars (n : Nat) : digitsVal (natToChars n) = n := by
  unfold natToChars
  by_cases hn : n = 0
  · rw [if_pos hn, hn]
    rfl
  · rw [if_neg hn]
    exact digitsVal_natToCharsAux n n (Nat.le_refl n)

theorem takeWhile_all (p : Char → Bool) :
    ∀ (l : List Char), (∀ c ∈ l, p c = true) → l.takeWhile p = l := by
  intro l
  induction l with
  | nil => intro h; rfl
  | cons c cs ih =>
    intro h
    rw [List.takeWhile_cons_of_pos (h c (by simp))]
    rw [ih (fun x hx => h x (by simp [hx]))]

theorem atoll_natToChars (n : Nat) : atoll (natToChars n) = (n : Int) := by
  cases hnc : natToChars n with
  | nil => exact absurd hnc (natToChars_ne_nil n)
  | cons c cs =>
    have hcd : c.isDigit = true := by
      apply natToChars_digits n
      rw [hnc]
      simp
    have hne := isDigit_not_special c hcd
    have hall : ∀ x ∈ c :: cs, Char.isDigit x = true := by
      rw [← hnc]
      exact natToChars_digits n
    simp only [atoll]
    rw [if_neg hne.2.2.1, if_neg hne.2.2.2.1]
    rw [takeWhile_all Char.isDigit (c :: cs) hall, ← hnc, digitsVal_natToChars]

theorem natAbs_digits (n : Int) : ∀ c ∈ intToChars n, c = '-' ∨ c.isDigit = true := by
  intro c h
  unfold intToChars at h
  by_cases hneg : n < 0
  · rw [if_pos hneg] at h
    rcases List.mem_cons.mp h with rfl | hmem
    · exact Or.inl rfl
    · exact Or.inr (natToChars_digits _ c hmem)
  · rw [if_neg hneg] at h
    exact Or.inr (natToChars_digits _ c h)

theorem intToChars_ne_e (n : Int) : ∀ c ∈ intToChars n, c ≠ 'e' := by
  intro c h
  rcases natAbs_digits n c h with rfl | hd
  · decide
  · exact (isDigit_not_special c hd).2.1

theorem atoll_intToChars (n : Int) : atoll (intToChars n) = n := by
  unfold intToChars
  by_cases hneg : n < 0
  · rw [if_pos hneg]
    cases hnc : natToChars n.natAbs with
    | nil => exact absurd hnc (natToChars_ne_nil _)
    | cons c cs =>
      simp only [atoll]
      rw [if_pos trivial]
      rw [show (c :: cs).takeWhile Char.isDigit = c :: cs from
        takeWhile_all Char.isDigit (c :: cs) (by rw [← hnc]; exact natToChars_digits _)]
      rw [← hnc, digitsVal_natToChars]
      omega
  · rw [if_neg hneg, atoll_natToChars]
    omega

/-! std::string::find and slicing lemmas. -/

theorem findChar_none_iff (t : Char) :
    ∀ l : List Char, findChar t l = none ↔ ∀ c ∈ l, c ≠ t := by
  intro l
  induction l with
  | nil => simp [findChar]
  | cons c cs ih =>
    simp only [findChar]
    by_cases hc : c = t
    · rw [if_pos hc]
      subst hc
      simp
    · rw [if_neg hc]
      simp only [Option.map_eq_none', ih, List.mem_cons]
      constructor
      · intro h x hx
        rcases hx with rfl | hmem
        · exact hc
        · exact h x hmem
      · intro h x hx
        exact h x (Or.inr hx)

theorem findChar_append (t : Char) :
    ∀ (l1 l2 : List Char), (∀ c ∈ l1, c ≠ t) →
      findChar t (l1 ++ t :: l2) = some l1.length := by
  intro l1
  induction l1 with
  | nil =>
    intro l2 h
    simp [findChar]
  | cons c cs ih =>
    intro l2 h
    simp only [List.cons_append, findChar]
    rw [if_neg (h c (by simp))]
    simp only [List.append_eq]
    rw [ih l2 (fun x hx => h x (by simp [hx]))]
    rfl

theorem take_len_append : ∀ (l1 l2 : List Char), (l1 ++ l2).take l1.length = l1 := by
  intro l1 l2
  induction l1 with
  | nil => rfl
  | cons a as ih => simpa using ih

theorem drop_len_append : ∀ (l1 l2 : List Char), (l1 ++ l2).drop l1.length = l2 := by
  intro l1 l2
  induction l1 with
  | nil => rfl
  | cons a as ih => simpa using ih

theorem drop_append_cons (l1 : List Char) (c : Char) (l2 : List Char) :
    (l1 ++ c :: l2).drop (l1.length + 1) = l2 := by
  induction l1 with
  | nil => rfl
  | cons a as ih => simpa using ih

theorem drop_append_cons_append (l1 : List Char) (c : Char) (s rest : List Char) :
    (l1 ++ c :: (s ++ rest)).drop (l1.length + 1 + s.length) = rest := by
  induction l1 with
  | nil =>
    show (c :: (s ++ rest)).drop (0 + 1 + s.length) = rest
    have : 0 + 1 + s.length = s.length + 1 := by omega
    rw [this, List.drop_succ_cons, drop_len_append]
  | cons a as ih =>
    show (a :: (as ++ c :: (s ++ rest))).drop (as.length + 1 + 1 + s.length) = rest
    have : as.length + 1 + 1 + s.length = (as.length + 1 + s.length) + 1 := by omega
    rw [this, List.drop_succ_cons]
    exact ih

/-! Decoding the encoder's output, one variant at a time. -/

theorem decodeStr_enc (s rest : List Char) :
    decodeStr (natToChars s.length ++ ':' :: (s ++ rest)) = some (.str s, rest) := by
  unfold decodeStr
  rw [findChar_append ':' (natToChars s.length) (s ++ rest)
    (fun c hc => (isDigit_not_special c (natToChars_digits _ c hc)).1)]
  dsimp only
  rw [take_len_append, atoll_natToChars, Int.toNat_natCast, drop_append_cons,
    take_len_append, drop_append_cons_append]

theorem decodeBen_encStr (k Y : List Char) (f : Nat) (hf : 1 ≤ f) :
    decodeBen f (natToChars k.length ++ ':' :: (k ++ Y)) = some (.str k, Y) := by
  cases f with
  | zero => omega
  | succ f' =>
    cases hnc : natToChars k.length with
    | nil => exact absurd hnc (natToChars_ne_nil _)
    | cons c cs =>
      have hcd : c.isDigit = true := by
        apply natToChars_digits k.length
        rw [hnc]
        simp
      rw [List.cons_append]
      simp only [decodeBen]
      rw [if_pos hcd]
      rw [show c :: (cs ++ ':' :: (k ++ Y)) = natToChars k.length ++ ':' :: (k ++ Y) from by
        rw [hnc]
        rfl]
      exact decodeStr_enc k Y

theorem decodeInt_enc (n : Int) (rest : List Char) :
    decodeInt ('i' :: (intToChars n ++ 'e' :: rest)) = some (.int n, rest) := by
  unfold decodeInt
  have h1 : ∀ c ∈ 'i' :: intToChars n, c ≠ 'e' := by
    intro c hc
    rcases List.mem_cons.mp hc with rfl | hm
    · decide
    · exact intToChars_ne_e n c hm
  have h2 := findChar_append 'e' ('i' :: intToChars n) rest h1
  simp only [List.cons_append, List.length_cons] at h2
  rw [h2]
  dsimp only
  rw [List.take_succ_cons, take_len_append, List.drop_succ_cons, List.drop_zero,
    atoll_intToChars, List.drop_succ_cons, drop_append_cons]

theorem decodeBen_encInt (n : Int) (Y : List Char) (f : Nat) (hf : 1 ≤ f) :
    decodeBen f (('i' :: (intToChars n ++ ['e'])) ++ Y) = some (.int n, Y) := by
  cases f with
  | zero => omega
  | succ f' =>
    rw [show ('i' :: (intToChars n ++ ['e'])) ++ Y = 'i' :: (intToChars n ++ 'e' :: Y) from by
      simp]
    simp only [decodeBen]
    rw [if_pos trivial]
    exact decodeInt_enc n Y

/-- The first character of any encoding: a digit for strings, i, l or d for
the rest; never the closing e. -/
theorem enc_head (v : Ben) :
    ∃ c tail, bencode_encode v = c :: tail ∧ c ≠ 'e' := by
  cases v with
  | str s =>
    cases hnc : natToChars s.length with
    | nil => exact absurd hnc (natToChars_ne_nil _)
    | cons c cs =>
      refine ⟨c, cs ++ ':' :: s, ?_, ?_⟩
      · show natToChars s.length ++ ':' :: s = c :: (cs ++ ':' :: s)
        rw [hnc]
        rfl
      · have hcd : c.isDigit = true := by
          apply natToChars_digits s.length
          rw [hnc]
          simp
        exact (isDigit_not_special c hcd).2.1
  | int n => exact ⟨'i', intToChars n ++ ['e'], by simp only [bencode_encode], by decide⟩
  | list items =>
    exact ⟨'l', encodeItems items ++ ['e'], by simp only [bencode_encode], by decide⟩
  | dict entries =>
    exact ⟨'d', flattenPairs (sortPairs (encodePairs entries)) ++ ['e'],
      by simp only [bencode_encode], by decide⟩

/-! Key-order lemmas: the encoder's sort is the identity on canonically
ordered dictionaries, and the decoder's sorted-map insertion appends when
keys arrive in ascending order. -/

theorem keyLt_asymm : ∀ (a b : List Char), keyLt a b = true → keyLt b a = false := by
  intro a
  induction a with
  | nil =>
    intro b h
    cases b with
    | nil => simp [keyLt] at h
    | cons x xs => rfl
  | cons x xs ih =>
    intro b h
    cases b with
    | nil => simp [keyLt] at h
    | cons y ys =>
      simp only [keyLt] at h ⊢
      by_cases hxy : x < y
      · rw [if_neg (lt_asymm hxy), if_pos hxy]
      · rw [if_neg hxy] at h
        by_cases hyx : y < x
        · rw [if_pos hyx] at h
          exact absurd h (by simp)
        · rw [if_neg hyx] at h
          rw [if_neg hyx, if_neg hxy]
          exact ih ys h

theorem insertEntry_append (acc : List (List Char × Ben)) (k : List Char) (v : Ben)
    (h : ∀ e ∈ acc, keyLt e.1 k = true) :
    insertEntry acc (k, v) = acc ++ [(k, v)] := by
  induction acc with
  | nil => rfl
  | cons f rest ih =>
    have hf : keyLt f.1 k = true := h f (by simp)
    simp only [insertEntry]
    rw [if_neg (by rw [keyLt_asymm f.1 k hf]; simp), if_pos hf]
    rw [ih (fun e he => h e (by simp [he]))]
    rfl

theorem sortPairs_sorted_id :
    ∀ (l : List (List Char × List Char)),
      l.Pairwise (fun a b => keyLt a.1 b.1 = true) → sortPairs l = l := by
  intro l
  induction l with
  | nil => intro _; rfl
  | cons e rest ih =>
    intro h
    have hp := List.pairwise_cons.mp h
    simp only [sortPairs]
    rw [ih hp.2]
    cases rest with
    | nil => rfl
    | cons f rest' =>
      simp only [sortInsertPair]
      rw [if_pos (hp.1 f (by simp))]

theorem encodePairs_eq_map (entries : List (List Char × Ben)) :
    encodePairs entries = entries.map (fun e => (e.1, bencode_encode e.2)) := by
  induction entries with
  | nil => rfl
  | cons e rest ih => simp only [encodePairs, List.map_cons, ih]

theorem sortPairs_encodePairs (entries : List (List Char × Ben))
    (h : entries.Pairwise (fun a b => keyLt a.1 b.1 = true)) :
    sortPairs (encodePairs entries) = encodePairs entries := by
  apply sortPairs_sorted_id
  rw [encodePairs_eq_map]
  exact List.Pairwise.map _ (fun a b hab => hab) h

theorem bencode_encode_dict_canonical (entries : List (List Char × Ben))
    (h : entries.Pairwise (fun a b => keyLt a.1 b.1 = true)) :
    bencode_encode (.dict entries) = 'd' :: (flattenPairs (encodePairs entries) ++ ['e']) := by
  simp only [bencode_encode]
  rw [sortPairs_encodePairs entries h]

/-! Reduction lemmas for the decoder's dispatch and loops. -/

theorem decodeBen_cons_l (f : Nat) (X : List Char) :
    decodeBen (f + 1) ('l' :: X) = decodeListLoop f X [] := by
  simp [decodeBen]

theorem decodeBen_cons_d (f : Nat) (X : List Char) :
    decodeBen (f + 1) ('d' :: X) = decodeDictLoop f X [] := by
  simp [decodeBen]

theorem decodeListLoop_e (f : Nat) (rest : List Char) (acc : List Ben) :
    decodeListLoop (f + 1) ('e' :: rest) acc = some (.list acc, rest) := by
  simp only [decodeListLoop]
  rw [if_pos trivial]

theorem decodeListLoop_cons_ne (f : Nat) (c : Char) (X : List Char) (acc : List Ben)
    (hce : c ≠ 'e') :
    decodeListLoop (f + 1) (c :: X) acc =
      match decodeBen f (c :: X) with
      | none => none
      | some (v, s1) => decodeListLoop f s1 (acc ++ [v]) := by
  simp only [decodeListLoop]
  rw [if_neg hce]

theorem decodeDictLoop_e (f : Nat) (rest : List Char) (acc : List (List Char × Ben)) :
    decodeDictLoop (f + 1) ('e' :: rest) acc = some (.dict acc, rest) := by
  simp only [decodeDictLoop]
  rw [if_pos trivial]

theorem decodeDictLoop_cons_ne (f : Nat) (c : Char) (X : List Char)
    (acc : List (List Char × Ben)) (hce : c ≠ 'e') :
    decodeDictLoop (f + 1) (c :: X) acc =
      match decodeBen f (c :: X) with
      | none => none
      | some (k, s1) =>
        match decodeBen f s1 with
        | none => none
        | some (v, s2) =>
          match k with
          | .str ks => decodeDictLoop f s2 (insertEntry acc (ks, v))
          | _ => none := by
  simp only [decodeDictLoop]
  rw [if_neg hce]

/-- The central round-trip lemma: the decoder, run on the encoding of a
canonical value followed by anything, returns exactly that value and the
unconsumed remainder, for every sufficient fuel. -/
theorem decodeBen_enc_aux :
    ∀ (n : Nat) (v : Ben), sizeOf v ≤ n → Canonical v →
      ∀ (f : Nat) (rest : List Char), 2 * (bencode_encode v).length ≤ f →
        decodeBen f (bencode_encode v ++ rest) = some (v, rest) := by
  intro n
  induction n with
  | zero =>
    intro v hsz
    exfalso
    cases v <;> simp_arith at hsz
  | succ m ih =>
    intro v hsz hcan f rest hf
    have hlen1 : 1 ≤ (bencode_encode v).length := by
      obtain ⟨c, tail, hct, -⟩ := enc_head v
      rw [hct]
      simp
    cases v with
    | str s =>
      have heq : bencode_encode (.str s) ++ rest =
          natToChars s.length ++ ':' :: (s ++ rest) := by
        simp only [bencode_encode]
        simp [List.append_assoc]
      rw [heq]
      exact decodeBen_encStr s rest f (by omega)
    | int k =>
      exact decodeBen_encInt k rest f (by omega)
    | list items =>
      have hitems : ∀ x ∈ items, Canonical x := by
        cases hcan with
        | list _ h => exact h
      have hsizes : ∀ x ∈ items, sizeOf x ≤ m := by
        intro x hx
        have h1 := List.sizeOf_lt_of_mem hx
        have h2 : sizeOf (Ben.list items) = 1 + sizeOf items := by simp
        omega
      have loopLemma : ∀ (xs : List Ben), (∀ x ∈ xs, sizeOf x ≤ m) →
          (∀ x ∈ xs, Canonical x) →
          ∀ (f1 : Nat) (acc : List Ben) (rest1 : List Char),
            2 * (encodeItems xs).length + 1 ≤ f1 →
            decodeListLoop f1 (encodeItems xs ++ 'e' :: rest1) acc =
              some (.list (acc ++ xs), rest1) := by
        intro xs
        induction xs with
        | nil =>
          intro _ _ f1 acc rest1 hf1
          cases f1 with
          | zero => omega
          | succ f1' =>
            show decodeListLoop (f1' + 1) (([] : List Char) ++ 'e' :: rest1) acc = _
            rw [List.nil_append, decodeListLoop_e]
            simp
        | cons x xs' ihx =>
          intro hszs hcans f1 acc rest1 hf1
          obtain ⟨c, tail, hct, hce⟩ := enc_head x
          have hx1 : 1 ≤ (bencode_encode x).length := by
            rw [hct]
            simp
          have hlenc : (encodeItems (x :: xs')).length =
              (bencode_encode x).length + (encodeItems xs').length := by
            simp only [encodeItems, List.length_append]
          cases f1 with
          | zero => omega
          | succ f1' =>
            have hinput : encodeItems (x :: xs') ++ 'e' :: rest1 =
                c :: (tail ++ (encodeItems xs' ++ 'e' :: rest1)) := by
              show bencode_encode x ++ encodeItems xs' ++ 'e' :: rest1 = _
              rw [hct]
              simp [List.append_assoc]
            rw [hinput, decodeListLoop_cons_ne f1' c _ acc hce]
            have hdec : decodeBen f1' (c :: (tail ++ (encodeItems xs' ++ 'e' :: rest1))) =
                some (x, encodeItems xs' ++ 'e' :: rest1) := by
              rw [show c :: (tail ++ (encodeItems xs' ++ 'e' :: rest1)) =
                  bencode_encode x ++ (encodeItems xs' ++ 'e' :: rest1) from by
                rw [hct]
                rfl]
              exact ih x (hszs x (by simp)) (hcans x (by simp)) f1' _ (by omega)
            rw [hdec]
            dsimp only
            have hrec := ihx (fun y hy => hszs y (by simp [hy]))
              (fun y hy => hcans y (by simp [hy])) f1' (acc ++ [x]) rest1 (by omega)
            rw [hrec]
            simp
      cases f with
      | zero => omega
      | succ f' =>
        have heq : bencode_encode (.list items) ++ rest =
            'l' :: (encodeItems items ++ 'e' :: rest) := by
          simp only [bencode_encode]
          simp [List.append_assoc]
        have hlen2 : (bencode_encode (Ben.list items)).length =
            (encodeItems items).length + 2 := by
          simp only [bencode_encode]
          simp
        rw [heq, decodeBen_cons_l]
        rw [loopLemma items hsizes hitems f' [] rest (by omega)]
        simp
    | dict entries =>
      have hvals : ∀ e ∈ entries, Canonical e.2 := by
        cases hcan with
        | dict _ h _ => exact h
      have hpw : entries.Pairwise (fun a b => keyLt a.1 b.1 = true) := by
        cases hcan with
        | dict _ _ h => exact h
      have hsizes : ∀ e ∈ entries, sizeOf e.2 ≤ m := by
        intro e he
        have h1 := List.sizeOf_lt_of_mem he
        have h2 : sizeOf (Ben.dict entries) = 1 + sizeOf entries := by simp
        have h3 : sizeOf e.2 < sizeOf e := by
          obtain ⟨k, w⟩ := e
          simp
        omega
      have dictLemma : ∀ (es : List (List Char × Ben)),
          (∀ e ∈ es, sizeOf e.2 ≤ m) → (∀ e ∈ es, Canonical e.2) →
          ∀ (f1 : Nat) (acc : List (List Char × Ben)) (rest1 : List Char),
            (acc ++ es).Pairwise (fun a b => keyLt a.1 b.1 = true) →
            2 * (flattenPairs (encodePairs es)).length + 1 ≤ f1 →
            decodeDictLoop f1 (flattenPairs (encodePairs es) ++ 'e' :: rest1) acc =
              some (.dict (acc ++ es), rest1) := by
        intro es
        induction es with
        | nil =>
          intro _ _ f1 acc rest1 _ hf1
          cases f1 with
          | zero => omega
          | succ f1' =>
            show decodeDictLoop (f1' + 1) (([] : List Char) ++ 'e' :: rest1) acc = _
            rw [List.nil_append, decodeDictLoop_e]
            simp
        | cons e es' ihe =>
          intro hszs hcans f1 acc rest1 hpw1 hf1
          obtain ⟨k, v⟩ := e
          have hflat : flattenPairs (encodePairs ((k, v) :: es')) =
              (natToChars k.length ++ ':' :: k) ++
                (bencode_encode v ++ flattenPairs (encodePairs es')) := by
            show (natToChars k.length ++ ':' :: k) ++ bencode_encode v ++
                flattenPairs (encodePairs es') = _
            simp [List.append_assoc]
          have hflen : (flattenPairs (encodePairs ((k, v) :: es'))).length =
              (natToChars k.length).length + 1 + k.length + (bencode_encode v).length +
                (flattenPairs (encodePairs es')).length := by
            rw [hflat]
            simp [List.length_append]
            omega
          have hnc1 : 1 ≤ (natToChars k.length).length := by
            cases hx : natToChars k.length with
            | nil => exact absurd hx (natToChars_ne_nil _)
            | cons a as => simp
          cases hnc : natToChars k.length with
          | nil => exact absurd hnc (natToChars_ne_nil _)
          | cons c cs =>
            have hcd : c.isDigit = true := by
              apply natToChars_digits k.length
              rw [hnc]
              simp
            have hce : c ≠ 'e' := (isDigit_not_special c hcd).2.1
            cases f1 with
            | zero => omega
            | succ f1' =>
              have hinput : flattenPairs (encodePairs ((k, v) :: es')) ++ 'e' :: rest1 =
                  c :: (cs ++ ':' :: (k ++ (bencode_encode v ++
                    (flattenPairs (encodePairs es') ++ 'e' :: rest1)))) := by
                rw [hflat, hnc]
                simp [List.append_assoc]
              rw [hinput, decodeDictLoop_cons_ne f1' c _ acc hce]
              have hkey : decodeBen f1' (c :: (cs ++ ':' :: (k ++ (bencode_encode v ++
                  (flattenPairs (encodePairs es') ++ 'e' :: rest1))))) =
                  some (.str k, bencode_encode v ++
                    (flattenPairs (encodePairs es') ++ 'e' :: rest1)) := by
                rw [show c :: (cs ++ ':' :: (k ++ (bencode_encode v ++
                    (flattenPairs (encodePairs es') ++ 'e' :: rest1)))) =
                    natToChars k.length ++ ':' :: (k ++ (bencode_encode v ++
                      (flattenPairs (encodePairs es') ++ 'e' :: rest1))) from by
                  rw [hnc]
                  rfl]
                exact decodeBen_encStr k _ f1' (by omega)
              rw [hkey]
              dsimp only
              have hval : decodeBen f1' (bencode_encode v ++
                  (flattenPairs (encodePairs es') ++ 'e' :: rest1)) =
                  some (v, flattenPairs (encodePairs es') ++ 'e' :: rest1) :=
                ih v (hszs (k, v) (by simp)) (hcans (k, v) (by simp)) f1' _ (by omega)
              rw [hval]
              dsimp only
              have hins : insertEntry acc (k, v) = acc ++ [(k, v)] := by
                apply insertEntry_append
                intro e' he'
                exact (List.pairwise_append.mp hpw1).2.2 e' he' (k, v) (by simp)
              rw [hins]
              have hpw2 : ((acc ++ [(k, v)]) ++ es').Pairwise
                  (fun a b => keyLt a.1 b.1 = true) := by
                rw [List.append_assoc]
                simpa using hpw1
              have hrec := ihe (fun y hy => hszs y (by simp [hy]))
                (fun y hy => hcans y (by simp [hy])) f1' (acc ++ [(k, v)]) rest1 hpw2
                (by omega)
              rw [hrec]
              simp
      cases f with
      | zero => omega
      | succ f' =>
        have heq : bencode_encode (.dict entries) ++ rest =
            'd' :: (flattenPairs (encodePairs entries) ++ 'e' :: rest) := by
          rw [bencode_encode_dict_canonical entries hpw]
          simp [List.append_assoc]
        have hlen2 : (bencode_encode (Ben.dict entries)).length =
            (flattenPairs (encodePairs entries)).length + 2 := by
          rw [bencode_encode_dict_canonical entries hpw]
          simp
        rw [heq, decodeBen_cons_d]
        rw [dictLemma entries hsizes hvals f' [] rest (by simpa using hpw) (by omega)]
        simp

/-- Round trip at top level, for any sufficient fuel and trailing input. -/
theorem decodeBen_enc (v : Ben) (hcan : Canonical v) (f : Nat) (rest : List Char)
    (hf : 2 * (bencode_encode v).length ≤ f) :
    decodeBen f (bencode_encode v ++ rest) = some (v, rest) :=
  decodeBen_enc_aux (sizeOf v) v (Nat.le_refl _) hcan f rest hf

/-- C8: decoding an encoded canonical Bencode value returns exactly that
value, and encoding the decode of a canonical encoding (a byte string that
is the encoding of some value with canonical key ordering) returns exactly
that byte string. -/
theorem bencode_roundtrip :
    (∀ v : Ben, Canonical v → decode_bencoded_value (bencode_encode v) = some v) ∧
    (∀ b : List Char, (∃ v, Canonical v ∧ bencode_encode v = b) →
      (decode_bencoded_value b).map bencode_encode = some b) := by
  have h1 : ∀ v : Ben, Canonical v → decode_bencoded_value (bencode_encode v) = some v := by
    intro v hcan
    unfold decode_bencoded_value
    have h := decodeBen_enc v hcan (2 * (bencode_encode v).length + 2) [] (by omega)
    rw [List.append_nil] at h
    rw [h]
    rfl
  refine ⟨h1, ?_⟩
  rintro b ⟨v, hcan, henc⟩
  subst henc
  rw [h1 v hcan]
  rfl

/-- Witness for bencode_roundtrip at a concrete one-entry dictionary. -/
theorem bencode_roundtrip_witness :
    decode_bencoded_value (bencode_encode (.dict [(['a'], .int 5)])) =
      some (.dict [(['a'], .int 5)]) ∧
    (decode_bencoded_value (bencode_encode (.dict [(['a'], .int 5)]))).map bencode_encode =
      some (bencode_encode (.dict [(['a'], .int 5)])) := by
  have hcan : Canonical (.dict [(['a'], .int 5)]) := by
    apply Canonical.dict
    · intro e he
      rw [List.mem_singleton] at he
      subst he
      exact Canonical.int 5 (by norm_num) (by norm_num)
    · simp
  exact ⟨bencode_roundtrip.1 _ hcan, bencode_roundtrip.2 _ ⟨_, hcan, rfl⟩⟩

/-! Suffix structure of successful decodes, for the malformed-input claim. -/

theorem decodeStr_suffix (s : List Char) (v : Ben) (r : List Char)
    (h : decodeStr s = some (v, r)) : ∃ pre, s = pre ++ r := by
  unfold decodeStr at h
  cases hf : findChar ':' s with
  | none => rw [hf] at h; exact absurd h (by simp)
  | some ci =>
    rw [hf] at h
    dsimp only at h
    injection h with h
    injection h with h1 h2
    exact ⟨s.take (ci + 1 + (atoll (s.take ci)).toNat), by
      rw [← h2, List.take_append_drop]⟩

theorem decodeInt_suffix (s : List Char) (v : Ben) (r : List Char)
    (h : decodeInt s = some (v, r)) : ∃ pre, s = pre ++ r := by
  unfold decodeInt at h
  cases hf : findChar 'e' s with
  | none => rw [hf] at h; exact absurd h (by simp)
  | some ei =>
    rw [hf] at h
    dsimp only at h
    injection h with h
    injection h with h1 h2
    exact ⟨s.take (ei + 1), by rw [← h2, List.take_append_drop]⟩

/-- Structure of every successful decode: the result remainder is a suffix,
and the loops consume everything up to and including a closing e. -/
theorem decode_suffix :
    ∀ (f : Nat),
      (∀ (s : List Char) (v : Ben) (r : List Char),
        decodeBen f s = some (v, r) → ∃ pre, s = pre ++ r) ∧
      (∀ (s : List Char) (acc : List Ben) (v : Ben) (r : List Char),
        decodeListLoop f s acc = some (v, r) → ∃ pre, s = pre ++ 'e' :: r) ∧
      (∀ (s : List Char) (acc : List (List Char × Ben)) (v : Ben) (r : List Char),
        decodeDictLoop f s acc = some (v, r) → ∃ pre, s = pre ++ 'e' :: r) := by
  intro f
  induction f with
  | zero =>
    refine ⟨?_, ?_, ?_⟩
    · intro s v r h
      simp [decodeBen] at h
    · intro s acc v r h
      simp [decodeListLoop] at h
    · intro s acc v r h
      simp [decodeDictLoop] at h
  | succ f ih =>
    obtain ⟨ihB, ihL, ihD⟩ := ih
    refine ⟨?_, ?_, ?_⟩
    · intro s v r h
      cases s with
      | nil => simp [decodeBen] at h
      | cons c cs =>
        simp only [decodeBen] at h
        by_cases hdig : c.isDigit = true
        · rw [if_pos hdig] at h
          exact decodeStr_suffix _ v r h
        · rw [if_neg hdig] at h
          by_cases hi : c = 'i'
          · rw [if_pos hi] at h
            exact decodeInt_suffix _ v r h
          · rw [if_neg hi] at h
            by_cases hl : c = 'l'
            · rw [if_pos hl] at h
              obtain ⟨pre, hpre⟩ := ihL ((c :: cs).drop 1) [] v r h
              refine ⟨c :: pre ++ ['e'], ?_⟩
              simp only [List.drop_succ_cons, List.drop_zero] at hpre
              simp [hpre]
            · rw [if_neg hl] at h
              by_cases hd : c = 'd'
              · rw [if_pos hd] at h
                obtain ⟨pre, hpre⟩ := ihD ((c :: cs).drop 1) [] v r h
                refine ⟨c :: pre ++ ['e'], ?_⟩
                simp only [List.drop_succ_cons, List.drop_zero] at hpre
                simp [hpre]
              · rw [if_neg hd] at h
                exact absurd h (by simp)
    · intro s acc v r h
      cases s with
      | nil => simp [decodeListLoop] at h
      | cons c cs =>
        simp only [decodeListLoop] at h
        by_cases hce : c = 'e'
        · rw [if_pos hce] at h
          injection h with h
          injection h with h1 h2
          subst hce
          subst h2
          exact ⟨[], rfl⟩
        · rw [if_neg hce] at h
          cases hdec : decodeBen f (c :: cs) with
          | none => rw [hdec] at h; exact absurd h (by simp)
          | some res =>
            obtain ⟨w, s1⟩ := res
            rw [hdec] at h
            dsimp only at h
            obtain ⟨p1, hp1⟩ := ihB (c :: cs) w s1 hdec
            obtain ⟨p2, hp2⟩ := ihL s1 (acc ++ [w]) v r h
            exact ⟨p1 ++ p2, by rw [hp1, hp2, List.append_assoc]⟩
    · intro s acc v r h
      cases s with
      | nil => simp [decodeDictLoop] at h
      | cons c cs =>
        simp only [decodeDictLoop] at h
        by_cases hce : c = 'e'
        · rw [if_pos hce] at h
          injection h with h
          injection h with h1 h2
          subst hce
          subst h2
          exact ⟨[], rfl⟩
        · rw [if_neg hce] at h
          cases hdec : decodeBen f (c :: cs) with
          | none => rw [hdec] at h; exact absurd h (by simp)
          | some res =>
            obtain ⟨k, s1⟩ := res
            rw [hdec] at h
            dsimp only at h
            cases hdec2 : decodeBen f s1 with
            | none => rw [hdec2] at h; exact absurd h (by simp)
            | some res2 =>
              obtain ⟨w, s2⟩ := res2
              rw [hdec2] at h
              dsimp only at h
              cases k with
              | str ks =>
                obtain ⟨p1, hp1⟩ := ihB (c :: cs) (.str ks) s1 hdec
                obtain ⟨p2, hp2⟩ := ihB s1 w s2 hdec2
                obtain ⟨p3, hp3⟩ := ihD s2 (insertEntry acc (ks, w)) v r h
                exact ⟨p1 ++ p2 ++ p3, by
                  rw [hp1, hp2, hp3, List.append_assoc, List.append_assoc]⟩
              | int n => exact absurd h (by simp)
              | list l => exact absurd h (by simp)
              | dict d => exact absurd h (by simp)

/-- C7: the decoder fails on each malformed shape: a byte-string whose
length prefix has no colon before end of input; an integer with no
terminating e; a list or dictionary whose input ends before its closing e
(stated as: any successful list or dictionary decode has its closing e
inside the input, immediately before the unconsumed remainder); and a
dictionary whose key is not a byte-string (here: whose first entry has any
non-string canonical key value). -/
theorem decode_malformed_spec :
    (∀ (c : Char) (cs : List Char), c.isDigit = true → (∀ x ∈ c :: cs, x ≠ ':') →
      decode_bencoded_value (c :: cs) = none) ∧
    (∀ cs : List Char, (∀ x ∈ cs, x ≠ 'e') →
      decode_bencoded_value ('i' :: cs) = none) ∧
    (∀ (f : Nat) (c : Char) (cs : List Char) (v : Ben) (r : List Char),
      c = 'l' ∨ c = 'd' →
      decodeBen f (c :: cs) = some (v, r) →
      ∃ pre, c :: cs = pre ++ 'e' :: r) ∧
    (∀ (u w : Ben) (tail : List Char), Canonical u → u.isStr = false → Canonical w →
      decode_bencoded_value
        ('d' :: (bencode_encode u ++ (bencode_encode w ++ tail))) = none) := by
  refine ⟨?_, ?_, ?_, ?_⟩
  · intro c cs hdig hnc
    unfold decode_bencoded_value
    rw [show 2 * (c :: cs).length + 2 = (2 * (c :: cs).length + 1) + 1 from by omega]
    simp only [decodeBen]
    rw [if_pos hdig]
    unfold decodeStr
    rw [(findChar_none_iff ':' (c :: cs)).mpr hnc]
    rfl
  · intro cs hne
    unfold decode_bencoded_value
    rw [show 2 * ('i' :: cs).length + 2 = (2 * ('i' :: cs).length + 1) + 1 from by omega]
    simp only [decodeBen]
    rw [if_pos trivial]
    unfold decodeInt
    rw [(findChar_none_iff 'e' ('i' :: cs)).mpr ?noe]
    · rfl
    case noe =>
      intro x hx
      rcases List.mem_cons.mp hx with rfl | hmem
      · decide
      · exact hne x hmem
  · intro f c cs v r hcld h
    cases f with
    | zero => simp [decodeBen] at h
    | succ f' =>
      rcases hcld with rfl | rfl
      · rw [decodeBen_cons_l] at h
        obtain ⟨pre, hpre⟩ := (decode_suffix f').2.1 cs [] v r h
        exact ⟨'l' :: pre, by rw [hpre]; rfl⟩
      · rw [decodeBen_cons_d] at h
        obtain ⟨pre, hpre⟩ := (decode_suffix f').2.2 cs [] v r h
        exact ⟨'d' :: pre, by rw [hpre]; rfl⟩
  · intro u w tail hcu hus hcw
    unfold decode_bencoded_value
    have hs : ('d' :: (bencode_encode u ++ (bencode_encode w ++ tail))).length =
        1 + (bencode_encode u).length + ((bencode_encode w).length + tail.length) := by
      simp [List.length_append]
      omega
    obtain ⟨c, tailu, hct, hce⟩ := enc_head u
    rw [show 2 * ('d' :: (bencode_encode u ++ (bencode_encode w ++ tail))).length + 2 =
      (2 * ('d' :: (bencode_encode u ++ (bencode_encode w ++ tail))).length + 1) + 1 from by
        omega]
    rw [decodeBen_cons_d]
    rw [show bencode_encode u ++ (bencode_encode w ++ tail) =
        c :: (tailu ++ (bencode_encode w ++ tail)) from by rw [hct]; rfl]
    rw [decodeDictLoop_cons_ne _ c _ [] hce]
    rw [show c :: (tailu ++ (bencode_encode w ++ tail)) =
        bencode_encode u ++ (bencode_encode w ++ tail) from by rw [hct]; rfl]
    rw [decodeBen_enc u hcu _ _ (by rw [hct] at hs ⊢; simp at hs ⊢; omega)]
    dsimp only
    rw [decodeBen_enc w hcw _ _ (by rw [hct] at hs ⊢; simp at hs ⊢; omega)]
    dsimp only
    cases u with
    | str us => simp [Ben.isStr] at hus
    | int n => rfl
    | list l => rfl
    | dict d => rfl

/-- Witness for decode_malformed_spec: its four parts applied at concrete
malformed inputs. -/
theorem decode_malformed_spec_witness :
    decode_bencoded_value ['5', 'x'] = none ∧
    decode_bencoded_value ('i' :: ['4', '2']) = none ∧
    (∃ pre, ['l', 'e'] = pre ++ 'e' :: ([] : List Char)) ∧
    decode_bencoded_value
      ('d' :: (bencode_encode (.int 3) ++ (bencode_encode (.str ['a']) ++ []))) = none := by
  refine ⟨?_, ?_, ?_, ?_⟩
  · exact decode_malformed_spec.1 '5' ['x'] (by decide) (by decide)
  · exact decode_malformed_spec.2.1 ['4', '2'] (by decide)
  · exact decode_malformed_spec.2.2.1 3 'l' ['e'] (.list []) [] (Or.inl rfl) rfl
  · exact decode_malformed_spec.2.2.2 (.int 3) (.str ['a']) []
      (Canonical.int 3 (by norm_num) (by norm_num)) rfl (Canonical.str ['a'])

end BT
